import Mathlib

/-!
# Credential hashing of `direct-messaging-server` (`database/hashing.go`)

A shallow embedding of `GenerateHash`, `VerifyHash` and `DecodeHash` together
with the parts of the Go standard library they call (`strings.Split`,
`fmt.Sscanf`, `fmt.Sprintf`, `encoding/base64`), and of the panics of
`golang.org/x/crypto/argon2.IDKey`.

Conventions of the embedding:

* Go strings and byte slices are sequences of bytes; both are `List Byte`.
* Go's `int` has 64 bits; `uint32` and `uint8` values are natural numbers, with
  the range checks and truncations of the source written out.
* A returned `error` is the `error` side of an `Except`; a panic is the `error`
  side of an outer `Except String`, carrying the message of the panic.
* The bytes `rand.Read` delivers and the key derivation behind `argon2.IDKey`
  are parameters.
-/

set_option maxRecDepth 100000

namespace Hashing

/-! ## Bytes and ASCII literals -/

/-- A Go `byte`. -/
abbrev Byte := Fin 256

/-- Truncating conversion `byte(n)`. -/
def toByte (n : Nat) : Byte := ⟨n % 256, Nat.mod_lt n (by decide)⟩

/-- The bytes of an ASCII string literal of the source. -/
def ascii (s : String) : List Byte := s.toList.map (fun c => toByte c.toNat)

/-! ## `strings.Split(s, "$")` -/

/-- The separator byte `'$'`. -/
def dollar : Byte := 36

/-- Go's `strings.Count(s, "$")`. -/
def Count : List Byte → Nat
  | [] => 0
  | c :: cs => if c = dollar then Count cs + 1 else Count cs

/-- Go's `strings.Index(s, "$")`, with `none` for Go's `-1`. -/
def Index : List Byte → Option Nat
  | [] => none
  | c :: cs => if c = dollar then some 0 else (Index cs).map (· + 1)

/-- The loop of `strings.genSplit`: at most `n` cuts at the next separator, the
remainder of the string being the last field. -/
def splitLoop : Nat → List Byte → List (List Byte)
  | 0, s => [s]
  | n + 1, s =>
    match Index s with
    | none => [s]
    | some m => s.take m :: splitLoop n (s.drop (m + 1))

/-- Go's `strings.Split(s, "$")`: `genSplit` with `n = Count(s, "$") + 1` fields. -/
def Split (s : List Byte) : List (List Byte) := splitLoop (Count s) s

/-! ## `unicode/utf8.DecodeRune` and `fmt.isSpace` -/

/-- The rune `utf8.RuneError` (U+FFFD). -/
def RuneError : Nat := 0xFFFD

/-- Whether a byte lies in the closed range `[lo, hi]`. -/
def inRange (lo hi : Nat) (b : Byte) : Bool := decide (lo ≤ b.val) && decide (b.val ≤ hi)

/-- Go's `utf8.DecodeRune(p)`: the first rune of `p` and its width in bytes; an
invalid or truncated encoding is `(RuneError, 1)`, the empty input
`(RuneError, 0)`.  The masks and shifts of the source are written with `%` and
`*`. -/
def DecodeRune : List Byte → Nat × Nat
  | [] => (RuneError, 0)
  | p0 :: rest =>
    if p0.val < 0x80 then (p0.val, 1)
    else if p0.val < 0xC2 then (RuneError, 1)
    else if p0.val < 0xE0 then
      match rest with
      | b1 :: _ =>
        if inRange 0x80 0xBF b1 then ((p0.val % 32) * 64 + b1.val % 64, 2) else (RuneError, 1)
      | _ => (RuneError, 1)
    else if p0.val < 0xF0 then
      let lo := if p0.val = 0xE0 then 0xA0 else 0x80
      let hi := if p0.val = 0xED then 0x9F else 0xBF
      match rest with
      | b1 :: b2 :: _ =>
        if inRange lo hi b1 && inRange 0x80 0xBF b2 then
          ((p0.val % 16) * 4096 + (b1.val % 64) * 64 + b2.val % 64, 3)
        else (RuneError, 1)
      | _ => (RuneError, 1)
    else if p0.val < 0xF5 then
      let lo := if p0.val = 0xF0 then 0x90 else 0x80
      let hi := if p0.val = 0xF4 then 0x8F else 0xBF
      match rest with
      | b1 :: b2 :: b3 :: _ =>
        if inRange lo hi b1 && inRange 0x80 0xBF b2 && inRange 0x80 0xBF b3 then
          ((p0.val % 8) * 262144 + (b1.val % 64) * 4096 + (b2.val % 64) * 64 + b3.val % 64, 4)
        else (RuneError, 1)
      | _ => (RuneError, 1)
    else (RuneError, 1)

/-- Go's `fmt.isSpace(r)`: the table `space` of `fmt/scan.go`. -/
def isSpace (r : Nat) : Bool :=
  (decide (0x0009 ≤ r) && decide (r ≤ 0x000d)) || r == 0x0020 || r == 0x0085 || r == 0x00a0
    || r == 0x1680 || (decide (0x2000 ≤ r) && decide (r ≤ 0x200a))
    || (decide (0x2028 ≤ r) && decide (r ≤ 0x2029)) || r == 0x202f || r == 0x205f
    || r == 0x3000

/-! ## `fmt.Sscanf` for the formats `"v=%d"` and `"t=%d,m=%d,p=%d"` -/

/-- The errors `fmt.Sscanf` returns for these formats. -/
inductive ScanError where
  /-- The error `io.ErrUnexpectedEOF`: the input ended inside literal text of the format. -/
  | unexpectedEOF
  /-- The error `io.EOF`: the input ended where a number was to start. -/
  | eof
  /-- The error "input does not match format". -/
  | noMatch
  /-- The error "unexpected newline". -/
  | unexpectedNewline
  /-- The error "expected integer". -/
  | expectedInteger
  /-- The error `strconv.ErrRange` of `ParseInt` or `ParseUint` at 64 bits. -/
  | range
  /-- The error "integer overflow on token" for the operand's bit size. -/
  | overflow
  deriving DecidableEq

/-- The constant `hugeWid` of `fmt/scan.go`: `ss.ReadRune` reports end of input
once that many runes have been read. -/
def hugeWid : Nat := 1073741824

/-- The first `n` runes of a string. -/
def takeRunes : Nat → List Byte → List Byte
  | 0, _ => []
  | _, [] => []
  | n + 1, c :: cs =>
    let w := (DecodeRune (c :: cs)).2
    (c :: cs).take w ++ takeRunes n ((c :: cs).drop w)

/-- What the scanner can read of the input: its first `hugeWid` runes (all of
it when it has no more bytes than that). -/
def scanInput (str : List Byte) : List Byte :=
  if str.length ≤ hugeWid then str else takeRunes hugeWid str

/-- Go's `ss.advance` on literal ASCII text of the format: each format byte must be
the next input rune.  A rune equals an ASCII character exactly when its first
byte does. -/
def advance : List Byte → List Byte → Except ScanError (List Byte)
  | [], input => .ok input
  | _ :: _, [] => .error .unexpectedEOF
  | f :: fs, c :: cs => if c = f then advance fs cs else .error .noMatch

/-- The loop of `ss.SkipSpace` with `nlIsSpace = false`; every round consumes a
rune, so `fuel = len(input)` rounds are enough. -/
def skipSpaceLoop : Nat → List Byte → Except ScanError (List Byte)
  | 0, s => .ok s
  | _, [] => .ok []
  | fuel + 1, c :: cs =>
    let r := (DecodeRune (c :: cs)).1
    let rest := (c :: cs).drop (DecodeRune (c :: cs)).2
    if r = 0x0D ∧ rest.head? = some 0x0A then skipSpaceLoop fuel rest
    else if r = 0x0A then .error .unexpectedNewline
    else if isSpace r then skipSpaceLoop fuel rest
    else .ok (c :: cs)

/-- Go's `ss.SkipSpace`. -/
def SkipSpace (s : List Byte) : Except ScanError (List Byte) := skipSpaceLoop s.length s

/-- A decimal digit, `ss.accept("0123456789")`. -/
def isDigit (b : Byte) : Bool := decide (48 ≤ b.val) && decide (b.val ≤ 57)

/-- The value of a run of decimal digits. -/
def digitsValue (tok : List Byte) : Nat := tok.foldl (fun a c => a * 10 + (c.val - 48)) 0

/-- Go's `ss.scanNumber(digits, false)`: the input must not be at its end and must
start with a digit; the token is the longest run of digits. -/
def scanNumber (s : List Byte) : Except ScanError (List Byte × List Byte) :=
  match s with
  | [] => .error .eof
  | c :: _ =>
    if isDigit c then .ok (s.takeWhile isDigit, s.dropWhile isDigit)
    else .error .expectedInteger

/-- Go's `ss.scanInt('d', bitSize)`: optional space, optional sign, digits, then
`strconv.ParseInt(tok, 10, 64)` and the check against `bitSize`. -/
def scanInt (bitSize : Nat) (s : List Byte) : Except ScanError (Int × List Byte) :=
  match SkipSpace s with
  | .error e => .error e
  | .ok [] => .error .eof
  | .ok (c :: cs) =>
    let neg : Bool := c == 45
    let s1 := if c = 43 ∨ c = 45 then cs else c :: cs
    match scanNumber s1 with
    | .error e => .error e
    | .ok (tok, rest) =>
      let un := digitsValue tok
      if (!neg && decide (2 ^ 63 ≤ un)) || (neg && decide (2 ^ 63 < un)) then .error .range
      else
        let i : Int := if neg then -(un : Int) else (un : Int)
        if i < -(2 : Int) ^ (bitSize - 1) ∨ (2 : Int) ^ (bitSize - 1) ≤ i then .error .overflow
        else .ok (i, rest)

/-- Go's `ss.scanUint('d', bitSize)`: optional space, digits, then
`strconv.ParseUint(tok, 10, 64)` and the check against `bitSize`. -/
def scanUint (bitSize : Nat) (s : List Byte) : Except ScanError (Nat × List Byte) :=
  match SkipSpace s with
  | .error e => .error e
  | .ok s0 =>
    match scanNumber s0 with
    | .error e => .error e
    | .ok (tok, rest) =>
      let un := digitsValue tok
      if 2 ^ 64 ≤ un then .error .range
      else if 2 ^ bitSize ≤ un then .error .overflow
      else .ok (un, rest)

/-- One `%d` of `doScanf` for a signed operand: `SkipSpace`, then `scanOne`. -/
def verbInt (bitSize : Nat) (s : List Byte) : Except ScanError (Int × List Byte) :=
  match SkipSpace s with
  | .error e => .error e
  | .ok s0 => scanInt bitSize s0

/-- One `%d` of `doScanf` for an unsigned operand. -/
def verbUint (bitSize : Nat) (s : List Byte) : Except ScanError (Nat × List Byte) :=
  match SkipSpace s with
  | .error e => .error e
  | .ok s0 => scanUint bitSize s0

/-- Go's `fmt.Sscanf(str, "v=%d", &data.Version)` with `Version int` (64 bits).
Input left over after the last verb is not looked at. -/
def SscanfVersion (str : List Byte) : Except ScanError Int :=
  match advance (ascii "v=") (scanInput str) with
  | .error e => .error e
  | .ok s0 =>
    match verbInt 64 s0 with
    | .error e => .error e
    | .ok (v, _) => .ok v

/-- Go's `fmt.Sscanf(str, "t=%d,m=%d,p=%d", &data.Time, &data.Memory, &data.Threads)`
with `Time, Memory uint32` and `Threads uint8`. -/
def SscanfCosts (str : List Byte) : Except ScanError (Nat × Nat × Nat) :=
  match advance (ascii "t=") (scanInput str) with
  | .error e => .error e
  | .ok s0 =>
    match verbUint 32 s0 with
    | .error e => .error e
    | .ok (t, s1) =>
      match advance (ascii ",m=") s1 with
      | .error e => .error e
      | .ok s2 =>
        match verbUint 32 s2 with
        | .error e => .error e
        | .ok (m, s3) =>
          match advance (ascii ",p=") s3 with
          | .error e => .error e
          | .ok s4 =>
            match verbUint 8 s4 with
            | .error e => .error e
            | .ok (p, _) => .ok (t, m, p)

/-! ## `fmt.Sprintf("%d", …)` -/

/-- The digit loop of `strconv.formatBits` at base 10: the last digit is
`u % 10`, the digits before it are those of `u / 10`. -/
def formatBits : Nat → Nat → List Byte
  | 0, u => [toByte (48 + u % 10)]
  | fuel + 1, u =>
    if u < 10 then [toByte (48 + u)] else formatBits fuel (u / 10) ++ [toByte (48 + u % 10)]

/-- The verb `%d` on an unsigned operand (`u` rounds are more than its digits). -/
def formatUint (u : Nat) : List Byte := formatBits u u

/-- The verb `%d` on a signed operand: a minus sign in front of a negative one. -/
def formatInt (i : Int) : List Byte :=
  if i < 0 then 45 :: formatUint i.natAbs else formatUint i.natAbs

/-! ## `encoding/base64.RawStdEncoding` -/

/-- The alphabet `encodeStd`. -/
def encodeStd : List Byte :=
  ascii "ABCDEFGHIJKLMNOPQRSTUVWXYZabcdefghijklmnopqrstuvwxyz0123456789+/"

/-- The table `enc.encode`: the character of a 6-bit value. -/
def encode (v : Nat) : Byte := encodeStd.getD v 0

/-- The table `enc.decodeMap`: the 6-bit value of an alphabet character, `0xFF`
for every other byte. -/
def decodeMap (c : Byte) : Nat :=
  if encodeStd.indexOf c < 64 then encodeStd.indexOf c else 0xFF

/-- Go's `RawStdEncoding.EncodeToString`: three bytes give four characters; a last
group of two bytes gives three and of one byte two, without padding.  The word
`val` is `src[0]<<16 | src[1]<<8 | src[2]`. -/
def EncodeToString : List Byte → List Byte
  | a :: b :: c :: rest =>
    let val := a.val * 65536 + b.val * 256 + c.val
    encode (val / 262144 % 64) :: encode (val / 4096 % 64) :: encode (val / 64 % 64)
      :: encode (val % 64) :: EncodeToString rest
  | [a, b] =>
    let val := a.val * 65536 + b.val * 256
    [encode (val / 262144 % 64), encode (val / 4096 % 64), encode (val / 64 % 64)]
  | [a] =>
    let val := a.val * 65536
    [encode (val / 262144 % 64), encode (val / 4096 % 64)]
  | [] => []

/-- The decoder of `Encoding.Decode` / `decodeQuantum` for an encoding without
padding and not strict, one input byte at a time: `si` is the index of the next
byte, `dbuf` the 6-bit values of the quantum being read, `dst` the bytes
decoded so far.  An alphabet character adds its value to the quantum, four
values give three bytes; `\r` and `\n` are skipped; any other byte is
`CorruptInputError(si)`.  At the end of the input a quantum of two or three
values gives one or two bytes and a quantum of one value is
`CorruptInputError(len(src) - 1)`. -/
def decodeLoop : List Byte → Nat → List Nat → List Byte → Except Nat (List Byte)
  | [], si, dbuf, dst =>
    match dbuf with
    | [_] => .error (si - 1)
    | [d0, d1] => .ok (dst ++ [toByte ((d0 * 262144 + d1 * 4096) / 65536)])
    | [d0, d1, d2] =>
      let val := d0 * 262144 + d1 * 4096 + d2 * 64
      .ok (dst ++ [toByte (val / 65536), toByte (val / 256)])
    | _ => .ok dst
  | c :: cs, si, dbuf, dst =>
    if decodeMap c ≠ 0xFF then
      match dbuf with
      | [d0, d1, d2] =>
        let val := d0 * 262144 + d1 * 4096 + d2 * 64 + decodeMap c
        decodeLoop cs (si + 1) [] (dst ++ [toByte (val / 65536), toByte (val / 256), toByte val])
      | _ => decodeLoop cs (si + 1) (dbuf ++ [decodeMap c]) dst
    else if c = 10 ∨ c = 13 then decodeLoop cs (si + 1) dbuf dst
    else .error si

/-- Go's `RawStdEncoding.DecodeString`; the error is the offset carried by
`base64.CorruptInputError`. -/
def DecodeString (s : List Byte) : Except Nat (List Byte) := decodeLoop s 0 [] []

/-! ## `golang.org/x/crypto/argon2` -/

/-- The constant `argon2.Version`. -/
def argon2Version : Int := 0x13

/-- The key derivation itself (what `deriveKey` computes once its arguments are
checked), a parameter of the development: a function of password, salt, time,
memory, threads and key length. -/
abbrev Kdf := List Byte → List Byte → Nat → Nat → Nat → Nat → List Byte

/-- Go's `argon2.IDKey(password, salt, time, memory, threads, keyLen)`: `deriveKey`
panics when `time < 1` and when `threads < 1`; with `keyLen = 0` its last step,
`extractKey`, hashes into an empty key with `blake2b.New(0, nil)`, which gives no
digest, and the write to it panics with a nil dereference.  Otherwise it returns
the derived key.  A panic is `Except.error` with its message. -/
def IDKey (kdf : Kdf) (password salt : List Byte) (time memory threads keyLen : Nat) :
    Except String (List Byte) :=
  if time < 1 then .error "argon2: number of rounds too small"
  else if threads < 1 then .error "argon2: parallelism degree too low"
  else if keyLen < 1 then
    .error "runtime error: invalid memory address or nil pointer dereference"
  else .ok (kdf password salt time memory threads keyLen)

/-! ## `database/hashing.go` -/

/-- The struct `Argon2Params`. -/
structure Argon2Params where
  /-- Field `Version int`. -/
  Version : Int
  /-- Field `Time uint32`. -/
  Time : Nat
  /-- Field `Memory uint32`. -/
  Memory : Nat
  /-- Field `Threads uint8`. -/
  Threads : Nat
  /-- Field `KeyLen uint32`. -/
  KeyLen : Nat
  /-- Field `Salt []byte`. -/
  Salt : List Byte
  /-- Field `Key []byte`. -/
  Key : List Byte
  deriving DecidableEq

/-- The errors `DecodeHash` returns. -/
inductive DecodeError where
  /-- The error "invalid number of fields". -/
  | ErrInvalidArgon2FieldCount
  /-- The error "incompatable argon2 version". -/
  | ErrIncompatableArgon2Version
  /-- An error of `fmt.Sscanf`. -/
  | scan (e : ScanError)
  /-- The error `base64.CorruptInputError(n)`, "illegal base64 data at input byte n". -/
  | CorruptInputError (n : Nat)
  deriving DecidableEq

/-- The format `"$argon2id$v=%d$t=%d,m=%d,p=%d$%s$%s"` of `GenerateHash`, applied
to a version, the three cost parameters, a salt and a key. -/
def formatHash (version : Int) (time memory threads : Nat) (salt key : List Byte) :
    List Byte :=
  ascii "$argon2id$v=" ++ formatInt version ++ ascii "$t=" ++ formatUint time
    ++ ascii ",m=" ++ formatUint memory ++ ascii ",p=" ++ formatUint threads
    ++ ascii "$" ++ EncodeToString salt ++ ascii "$" ++ EncodeToString key

/-- What `rand.Read(salt)` did: the 16-byte buffer as it left it, the count `n`
and the error. -/
structure RandRead where
  /-- The buffer `salt` after the call. -/
  salt : List Byte
  /-- The number of bytes read. -/
  n : Nat
  /-- The error, if any. -/
  err : Option String

/-- The function `GenerateHash(secret)` for a given outcome of `rand.Read`.  The outer
`Except` is a panic, the inner one the returned `error`. -/
def GenerateHash (kdf : Kdf) (rd : RandRead) (secret : List Byte) :
    Except String (Except String (List Byte)) :=
  let time := 1
  let memory := 64 * 1024
  let threads := 4
  let keyLen := 32
  match rd.err with
  | some err => .ok (.error err)
  | none =>
    if rd.n ≠ rd.salt.length then .ok (.error "random salt was not long enough")
    else
      match IDKey kdf secret rd.salt time memory threads keyLen with
      | .error msg => .error msg
      | .ok key => .ok (.ok (formatHash argon2Version time memory threads rd.salt key))

/-- The function `DecodeHash(hash, &data)`: the error, or `data` as the call leaves it on
success. -/
def DecodeHash (hash : List Byte) : Except DecodeError Argon2Params :=
  match Split hash with
  | [f0, f1, f2, f3, f4, f5] =>
    if f0 ≠ [] ∨ f1 ≠ ascii "argon2id" then .error .ErrIncompatableArgon2Version
    else
      match SscanfVersion f2 with
      | .error e => .error (.scan e)
      | .ok version =>
        if argon2Version ≠ version then .error .ErrIncompatableArgon2Version
        else
          match SscanfCosts f3 with
          | .error e => .error (.scan e)
          | .ok (time, memory, threads) =>
            match DecodeString f4 with
            | .error n => .error (.CorruptInputError n)
            | .ok salt =>
              match DecodeString f5 with
              | .error n => .error (.CorruptInputError n)
              | .ok key =>
                .ok { Version := version, Time := time, Memory := memory, Threads := threads,
                      KeyLen := key.length % 2 ^ 32, Salt := salt, Key := key }
  | _ => .error .ErrInvalidArgon2FieldCount

/-- The function `VerifyHash(secret, hash)`: the returned boolean, or the panic of
`argon2.IDKey`. -/
def VerifyHash (kdf : Kdf) (secret hash : List Byte) : Except String Bool :=
  match DecodeHash hash with
  | .error _ => .ok false
  | .ok data =>
    match IDKey kdf secret data.Salt data.Time data.Memory data.Threads data.KeyLen with
    | .error msg => .error msg
    | .ok secretHash => .ok (decide (secretHash = data.Key))

/-! ## Sample inputs -/

/-- A key derivation that returns `keyLen` zero bytes. -/
def sampleKdf : Kdf := fun _ _ _ _ _ keyLen => List.replicate keyLen 0

/-- A successful read of sixteen bytes from the random source. -/
def sampleRead : RandRead :=
  { salt := [250, 202, 61, 2, 135, 32, 179, 45, 58, 240, 113, 33, 89, 184, 185, 42],
    n := 16, err := none }

/-- Another successful read, with a different salt. -/
def otherRead : RandRead :=
  { salt := [1, 2, 3, 4, 5, 6, 7, 8, 9, 10, 11, 12, 13, 14, 15, 16], n := 16, err := none }

/-! ## Auxiliary definitions -/

/-- Equality of results is decidable. -/
instance instDecidableEqExcept {ε α : Type} [DecidableEq ε] [DecidableEq α] :
    DecidableEq (Except ε α) := fun a b =>
  match a, b with
  | .ok x, .ok y => if h : x = y then isTrue (by rw [h]) else isFalse (fun e => h (by cases e; rfl))
  | .error x, .error y =>
    if h : x = y then isTrue (by rw [h]) else isFalse (fun e => h (by cases e; rfl))
  | .ok _, .error _ => isFalse (fun e => by cases e)
  | .error _, .ok _ => isFalse (fun e => by cases e)

/-- The input does not go on with a digit. -/
def noDigitAhead (rest : List Byte) : Prop := ∀ c, rest.head? = some c → isDigit c = false

/-- The version field `GenerateHash` writes. -/
def versionField (version : Int) : List Byte := ascii "v=" ++ formatInt version

/-- The cost field `GenerateHash` writes. -/
def costField (time memory threads : Nat) : List Byte :=
  ascii "t=" ++ formatUint time ++ ascii ",m=" ++ formatUint memory ++ ascii ",p="
    ++ formatUint threads

/-! ## The fields `fmt.Sscanf` accepts -/

/-- Whether the input goes on with a digit can be decided. -/
instance instDecidableNoDigitAhead (rest : List Byte) : Decidable (noDigitAhead rest) :=
  match rest with
  | [] => isTrue (fun _ hc => by simp at hc)
  | c :: _ =>
    if h : isDigit c = false then
      isTrue (fun x hx => by
        simp only [List.head?_cons, Option.some.injEq] at hx
        rw [← hx]; exact h)
    else isFalse (fun hn => h (hn c rfl))

/-- The UTF-8 encodings of the runes `fmt.isSpace` accepts, the line feed
apart: U+0009, U+000B to U+000D, U+0020, U+0085, U+00A0, U+1680, U+2000 to
U+200A, U+2028, U+2029, U+202F, U+205F and U+3000. -/
def spaceEncoding (e : List Byte) : Bool :=
  match e with
  | [a] => decide (a.val = 0x09 ∨ a.val = 0x0B ∨ a.val = 0x0C ∨ a.val = 0x0D ∨ a.val = 0x20)
  | [a, b] => decide (a.val = 0xC2 ∧ (b.val = 0x85 ∨ b.val = 0xA0))
  | [a, b, c] =>
    decide ((a.val = 0xE1 ∧ b.val = 0x9A ∧ c.val = 0x80) ∨
      (a.val = 0xE2 ∧ b.val = 0x80 ∧
        ((0x80 ≤ c.val ∧ c.val ≤ 0x8A) ∨ c.val = 0xA8 ∨ c.val = 0xA9 ∨ c.val = 0xAF)) ∨
      (a.val = 0xE2 ∧ b.val = 0x81 ∧ c.val = 0x9F) ∨
      (a.val = 0xE3 ∧ b.val = 0x80 ∧ c.val = 0x80))
  | _ => false

/-- A run of white space without a line feed: encoded space runes, one after
the other. -/
inductive Spaces : List Byte → Prop where
  /-- The empty run. -/
  | nil : Spaces []
  /-- A space rune in front of a run. -/
  | cons (e rest : List Byte) : spaceEncoding e = true → Spaces rest → Spaces (e ++ rest)

/-- The input is at its end or goes on with an ASCII byte that is not white
space. -/
def stopsSpace (s : List Byte) : Prop :=
  ∀ c, s.head? = some c → c.val < 0x80 ∧ isSpace c.val = false

/-- The digits `d` are a decimal numeral of `n` (leading zeros allowed). -/
def Numeral (d : List Byte) (n : Nat) : Prop :=
  d ≠ [] ∧ (∀ c ∈ d, isDigit c = true) ∧ digitsValue d = n

/-- The form of a version field from which `fmt.Sscanf` reads `v` with the
format `"v=%d"`: the literal `v=`, white space without a line feed, an optional
sign, a decimal numeral within 64 bits, and then anything that does not go on
with a digit (the scanner reads `hugeWid` runes at most, so in a longer field
the numeral may be cut there). -/
def versionForm (f : List Byte) (v : Int) : Prop :=
  ∃ sp sign digits rest, f = ascii "v=" ++ sp ++ sign ++ digits ++ rest ∧ Spaces sp ∧
    (sign = [] ∨ sign = [43] ∨ sign = [45]) ∧ Numeral digits (digitsValue digits) ∧
    (f.length ≤ hugeWid → noDigitAhead rest) ∧
    v = (if sign = [45] then -(digitsValue digits : Int) else (digitsValue digits : Int)) ∧
    -(2 : Int) ^ 63 ≤ v ∧ v < (2 : Int) ^ 63

/-- The form of a cost field from which `fmt.Sscanf` reads `t`, `m` and `p` with
the format `"t=%d,m=%d,p=%d"`: `t=`, `,m=` and `,p=` in that order, each followed
by white space without a line feed and a decimal numeral, of at most 32, 32 and
8 bits, and after the last numeral anything that does not go on with a digit
(in a field longer than `hugeWid` the last numeral may be cut there). -/
def costsForm (f : List Byte) (t m p : Nat) : Prop :=
  ∃ s1 d1 s2 d2 s3 d3 rest,
    f = ascii "t=" ++ s1 ++ d1 ++ ascii ",m=" ++ s2 ++ d2 ++ ascii ",p=" ++ s3 ++ d3 ++ rest ∧
    Spaces s1 ∧ Spaces s2 ∧ Spaces s3 ∧ Numeral d1 t ∧ Numeral d2 m ∧ Numeral d3 p ∧
    (f.length ≤ hugeWid → noDigitAhead rest) ∧ t < 2 ^ 32 ∧ m < 2 ^ 32 ∧ p < 2 ^ 8

/-! ## Facts about `strings.Split` -/


theorem Count_append (a b : List Byte) : Count (a ++ b) = Count a + Count b := by
  induction a with
  | nil => simp [Count]
  | cons c cs ih =>
    by_cases h : c = dollar
    · simp [Count, h, ih]; omega
    · simp [Count, h, ih]

theorem Count_eq_zero {a : List Byte} (h : dollar ∉ a) : Count a = 0 := by
  induction a with
  | nil => rfl
  | cons c cs ih =>
    have hc : c ≠ dollar := fun e => h (by simp [e])
    have hcs : dollar ∉ cs := fun m => h (List.mem_cons_of_mem _ m)
    simp [Count, hc, ih hcs]

theorem Count_eq_count (s : List Byte) : Count s = s.count dollar := by
  induction s with
  | nil => rfl
  | cons c cs ih =>
    by_cases h : c = dollar
    · simp [Count, h, ih]
    · have h2 : ¬ (c == dollar) = true := by simpa using h
      simp [Count, h, ih, List.count_cons, h2]

theorem Index_none {a : List Byte} (h : dollar ∉ a) : Index a = none := by
  induction a with
  | nil => rfl
  | cons c cs ih =>
    have hc : c ≠ dollar := fun e => h (by simp [e])
    have hcs : dollar ∉ cs := fun m => h (List.mem_cons_of_mem _ m)
    simp [Index, hc, ih hcs]

theorem Index_append (a r : List Byte) (h : dollar ∉ a) :
    Index (a ++ dollar :: r) = some a.length := by
  induction a with
  | nil => simp [Index]
  | cons c cs ih =>
    have hc : c ≠ dollar := fun e => h (by simp [e])
    have hcs : dollar ∉ cs := fun m => h (List.mem_cons_of_mem _ m)
    simp [Index, hc, ih hcs]

theorem Index_isSome {s : List Byte} (h : dollar ∈ s) : ∃ m, Index s = some m := by
  induction s with
  | nil => simp at h
  | cons c cs ih =>
    by_cases hc : c = dollar
    · exact ⟨0, by simp [Index, hc]⟩
    · have hcs : dollar ∈ cs := by
        rcases List.mem_cons.mp h with e | e
        · exact absurd e.symm hc
        · exact e
      obtain ⟨m, hm⟩ := ih hcs
      exact ⟨m + 1, by simp [Index, hc, hm]⟩

/-- A string cut at its first separator. -/
theorem Index_some {s : List Byte} {m : Nat} (h : Index s = some m) :
    dollar ∉ s.take m ∧ s = s.take m ++ dollar :: s.drop (m + 1) := by
  induction s generalizing m with
  | nil => simp [Index] at h
  | cons c cs ih =>
    by_cases hc : c = dollar
    · simp [Index, hc] at h
      subst h
      simp [hc]
    · simp only [Index, hc, if_false, Option.map_eq_some'] at h
      obtain ⟨k, hk, rfl⟩ := h
      obtain ⟨h1, h2⟩ := ih hk
      refine ⟨?_, ?_⟩
      · simp only [List.take_succ_cons, List.mem_cons, not_or]
        exact ⟨fun e => hc e.symm, h1⟩
      · simp only [List.take_succ_cons, List.drop_succ_cons, List.cons_append]
        rw [← h2]

theorem splitLoop_nodollar (n : Nat) {a : List Byte} (h : dollar ∉ a) : splitLoop n a = [a] := by
  cases n with
  | zero => rfl
  | succ n => simp [splitLoop, Index_none h]

theorem splitLoop_append (n : Nat) (a r : List Byte) (h : dollar ∉ a) :
    splitLoop (n + 1) (a ++ dollar :: r) = a :: splitLoop n r := by
  simp [splitLoop, Index_append a r h]

theorem Split_nodollar {a : List Byte} (h : dollar ∉ a) : Split a = [a] :=
  splitLoop_nodollar _ h

theorem Split_append (a r : List Byte) (h : dollar ∉ a) :
    Split (a ++ dollar :: r) = a :: Split r := by
  unfold Split
  have hc : Count (a ++ dollar :: r) = Count r + 1 := by
    rw [Count_append, Count_eq_zero h]; simp [Count]
  rw [hc, splitLoop_append _ _ _ h]

theorem splitLoop_length (n : Nat) (s : List Byte) :
    (splitLoop n s).length = min n (Count s) + 1 := by
  induction n generalizing s with
  | zero => simp [splitLoop]
  | succ n ih =>
    unfold splitLoop
    cases hI : Index s with
    | none =>
      have : Count s = 0 := by
        by_cases hm : dollar ∈ s
        · obtain ⟨m, hm2⟩ := Index_isSome hm
          rw [hI] at hm2
          exact absurd hm2 (by simp)
        · exact Count_eq_zero hm
      simp [this]
    | some m =>
      obtain ⟨h1, h2⟩ := Index_some hI
      have hc : Count s = Count (s.drop (m + 1)) + 1 := by
        conv_lhs => rw [h2]
        rw [Count_append, Count_eq_zero h1]; simp [Count]
      simp only [List.length_cons, ih, hc]
      omega

theorem Split_length (s : List Byte) : (Split s).length = Count s + 1 := by
  unfold Split
  rw [splitLoop_length]; simp


/-! ## Facts about `%d` and the scanner -/

theorem isDigit_toByte {d : Nat} (h : d < 10) : isDigit (toByte (48 + d)) = true := by
  have : (toByte (48 + d)).val = 48 + d := by
    simp only [toByte]; omega
  simp only [isDigit, this, Bool.and_eq_true, decide_eq_true_eq]
  omega

theorem toByte_digit_val {d : Nat} (h : d < 10) : (toByte (48 + d)).val - 48 = d := by
  have : (toByte (48 + d)).val = 48 + d := by
    simp only [toByte]; omega
  omega

theorem formatBits_ne_nil (fuel u : Nat) : formatBits fuel u ≠ [] := by
  cases fuel with
  | zero => simp [formatBits]
  | succ f =>
    unfold formatBits
    split <;> simp

theorem formatBits_digits (fuel u : Nat) : ∀ c ∈ formatBits fuel u, isDigit c = true := by
  induction fuel generalizing u with
  | zero =>
    intro c hc
    simp only [formatBits, List.mem_singleton] at hc
    subst hc
    exact isDigit_toByte (Nat.mod_lt _ (by decide))
  | succ f ih =>
    intro c hc
    unfold formatBits at hc
    split at hc
    · simp only [List.mem_singleton] at hc
      subst hc
      exact isDigit_toByte (by assumption)
    · rcases List.mem_append.mp hc with h | h
      · exact ih _ c h
      · simp only [List.mem_singleton] at h
        subst h
        exact isDigit_toByte (Nat.mod_lt _ (by decide))

theorem digitsValue_append_singleton (l : List Byte) (c : Byte) :
    digitsValue (l ++ [c]) = digitsValue l * 10 + (c.val - 48) := by
  simp [digitsValue, List.foldl_append]

theorem formatBits_value (fuel u : Nat) (h : u < 10 ^ (fuel + 1)) :
    digitsValue (formatBits fuel u) = u := by
  induction fuel generalizing u with
  | zero =>
    have h10 : u < 10 := by simpa using h
    simp only [formatBits, digitsValue, List.foldl_cons, List.foldl_nil]
    rw [toByte_digit_val (Nat.mod_lt _ (by decide))]
    omega
  | succ f ih =>
    unfold formatBits
    split
    · rename_i hlt
      simp only [digitsValue, List.foldl_cons, List.foldl_nil]
      rw [toByte_digit_val hlt]
      omega
    · rw [digitsValue_append_singleton, toByte_digit_val (Nat.mod_lt _ (by decide))]
      have hdiv : u / 10 < 10 ^ (f + 1) := by
        have : 10 ^ (f + 1 + 1) = 10 * 10 ^ (f + 1) := by ring
        rw [this] at h
        exact Nat.div_lt_of_lt_mul h
      rw [ih _ hdiv]
      omega

theorem formatBits_length (fuel u k : Nat) (h : u < 10 ^ (k + 1)) :
    (formatBits fuel u).length ≤ k + 1 := by
  induction fuel generalizing u k with
  | zero => simp [formatBits]
  | succ f ih =>
    unfold formatBits
    split
    · simp
    · rename_i hge
      cases k with
      | zero => exact absurd (by simpa using h) hge
      | succ k =>
        have hdiv : u / 10 < 10 ^ (k + 1) := by
          have : 10 ^ (k + 1 + 1) = 10 * 10 ^ (k + 1) := by ring
          rw [this] at h
          exact Nat.div_lt_of_lt_mul h
        have := ih (u / 10) k hdiv
        simp only [List.length_append, List.length_singleton]
        omega

theorem lt_ten_pow_succ (u : Nat) : u < 10 ^ (u + 1) :=
  lt_of_lt_of_le (Nat.lt_pow_self (by decide) u) (Nat.pow_le_pow_right (by decide) (Nat.le_succ u))

theorem formatUint_value (u : Nat) : digitsValue (formatUint u) = u :=
  formatBits_value u u (lt_ten_pow_succ u)

theorem formatUint_digits (u : Nat) : ∀ c ∈ formatUint u, isDigit c = true :=
  formatBits_digits u u

theorem formatUint_ne_nil (u : Nat) : formatUint u ≠ [] := formatBits_ne_nil u u

theorem formatUint_length (u k : Nat) (h : u < 10 ^ (k + 1)) : (formatUint u).length ≤ k + 1 :=
  formatBits_length u u k h


theorem advance_append (lit rest : List Byte) : advance lit (lit ++ rest) = .ok rest := by
  induction lit with
  | nil => cases rest <;> rfl
  | cons f fs ih => simp [advance, ih]

theorem DecodeRune_ascii (c : Byte) (cs : List Byte) (h : c.val < 0x80) :
    DecodeRune (c :: cs) = (c.val, 1) := by
  simp [DecodeRune, h]

theorem SkipSpace_digit (c : Byte) (cs : List Byte) (h : isDigit c = true) :
    SkipSpace (c :: cs) = .ok (c :: cs) := by
  simp only [isDigit, Bool.and_eq_true, decide_eq_true_eq] at h
  have hr : DecodeRune (c :: cs) = (c.val, 1) := DecodeRune_ascii c cs (by omega)
  have h1 : ¬ (c.val = 0x0D ∧ ((c :: cs).drop 1).head? = some 0x0A) := by omega
  have h2 : ¬ c.val = 0x0A := by omega
  have h3 : isSpace c.val = false := by
    simp only [isSpace, Bool.or_eq_false_iff, Bool.and_eq_false_imp, decide_eq_true_eq,
      decide_eq_false_iff_not, beq_eq_false_iff_ne, ne_eq]
    omega
  simp only [SkipSpace, List.length_cons, skipSpaceLoop, hr, h1, h2, h3, if_false]
  simp

theorem takeWhile_noDigitAhead {rest : List Byte} (h : noDigitAhead rest) :
    rest.takeWhile isDigit = [] := by
  cases rest with
  | nil => rfl
  | cons c cs => simp [List.takeWhile, h c rfl]

theorem dropWhile_noDigitAhead {rest : List Byte} (h : noDigitAhead rest) :
    rest.dropWhile isDigit = rest := by
  cases rest with
  | nil => rfl
  | cons c cs => simp [List.dropWhile, h c rfl]

theorem takeWhile_digits (l rest : List Byte) (hl : ∀ c ∈ l, isDigit c = true)
    (h : noDigitAhead rest) : (l ++ rest).takeWhile isDigit = l := by
  induction l with
  | nil => simpa using takeWhile_noDigitAhead h
  | cons c cs ih =>
    have hc := hl c (by simp)
    rw [List.cons_append, List.takeWhile_cons, hc, if_pos rfl,
      ih (fun x hx => hl x (List.mem_cons_of_mem _ hx))]

theorem dropWhile_digits (l rest : List Byte) (hl : ∀ c ∈ l, isDigit c = true)
    (h : noDigitAhead rest) : (l ++ rest).dropWhile isDigit = rest := by
  induction l with
  | nil => simpa using dropWhile_noDigitAhead h
  | cons c cs ih =>
    have hc := hl c (by simp)
    rw [List.cons_append, List.dropWhile_cons, hc, if_pos rfl,
      ih (fun x hx => hl x (List.mem_cons_of_mem _ hx))]

theorem verbUint_format (bits n : Nat) (rest : List Byte) (hn : n < 2 ^ bits) (hb : bits ≤ 64)
    (h : noDigitAhead rest) : verbUint bits (formatUint n ++ rest) = .ok (n, rest) := by
  have hd := formatUint_digits n
  have hne := formatUint_ne_nil n
  have hv := formatUint_value n
  have h64 : n < 2 ^ 64 := lt_of_lt_of_le hn (Nat.pow_le_pow_right (by decide) hb)
  generalize formatUint n = l at hd hne hv
  cases l with
  | nil => exact absurd rfl hne
  | cons c cs =>
    have hc : isDigit c = true := hd c (by simp)
    have hs : SkipSpace (c :: (cs ++ rest)) = .ok (c :: (cs ++ rest)) := SkipSpace_digit c _ hc
    have ht := takeWhile_digits (c :: cs) rest hd h
    have hdr := dropWhile_digits (c :: cs) rest hd h
    simp only [List.cons_append] at ht hdr
    simp only [verbUint, scanUint, List.cons_append, hs, scanNumber, hc, if_true, ht, hdr, hv]
    rw [if_neg (by omega), if_neg (by omega)]

theorem noDigitAhead_ascii_comma (s : List Byte) : noDigitAhead ((44 : Byte) :: s) := by
  intro c hc
  simp only [List.head?_cons, Option.some.injEq] at hc
  subst hc
  decide

theorem noDigitAhead_nil : noDigitAhead [] := by
  intro c hc
  simp at hc

theorem scanInput_small {s : List Byte} (h : s.length ≤ hugeWid) : scanInput s = s := by
  simp [scanInput, h]

/-- Scanning the cost field `GenerateHash` writes gives back the three numbers. -/
theorem SscanfCosts_format (t m p : Nat) (ht : t < 2 ^ 32) (hm : m < 2 ^ 32) (hp : p < 2 ^ 8) :
    SscanfCosts (ascii "t=" ++ formatUint t ++ ascii ",m=" ++ formatUint m ++ ascii ",p="
      ++ formatUint p) = .ok (t, m, p) := by
  have hlt := formatUint_length t 9 (by omega)
  have hlm := formatUint_length m 9 (by omega)
  have hlp := formatUint_length p 2 (by omega)
  have hlen : (ascii "t=" ++ formatUint t ++ ascii ",m=" ++ formatUint m ++ ascii ",p="
      ++ formatUint p).length ≤ hugeWid := by
    have e1 : (ascii "t=").length = 2 := by decide
    have e2 : (ascii ",m=").length = 3 := by decide
    have e3 : (ascii ",p=").length = 3 := by decide
    simp only [List.length_append, e1, e2, e3, hugeWid]
    omega
  unfold SscanfCosts
  rw [scanInput_small hlen]
  simp only [List.append_assoc, advance_append]
  have c1 : ascii ",m=" = (44 : Byte) :: ascii "m=" := by decide
  have c2 : ascii ",p=" = (44 : Byte) :: ascii "p=" := by decide
  have s1 := verbUint_format 32 t (ascii ",m=" ++ (formatUint m ++ (ascii ",p=" ++ formatUint p)))
    ht (by decide) (by rw [c1]; exact noDigitAhead_ascii_comma _)
  have s2 := verbUint_format 32 m (ascii ",p=" ++ formatUint p)
    hm (by decide) (by rw [c2]; exact noDigitAhead_ascii_comma _)
  have s3 := verbUint_format 8 p [] hp (by decide) noDigitAhead_nil
  simp only [List.append_nil] at s3
  simp only [s1, advance_append, s2, s3]

/-! ## Facts about base64 -/


theorem decodeMap_encode_fin : ∀ v : Fin 64, decodeMap (encode v.val) = v.val := by decide

theorem decodeMap_encode {v : Nat} (h : v < 64) : decodeMap (encode v) = v :=
  decodeMap_encode_fin ⟨v, h⟩

theorem encode_ne_dollar_fin : ∀ v : Fin 64, encode v.val ≠ dollar := by decide

theorem encode_ne_dollar {v : Nat} (h : v < 64) : encode v ≠ dollar :=
  encode_ne_dollar_fin ⟨v, h⟩

theorem EncodeToString_nodollar (bs : List Byte) : dollar ∉ EncodeToString bs := by
  induction bs using EncodeToString.induct with
  | case1 a b c rest ih =>
    simp only [EncodeToString, List.mem_cons, not_or]
    exact ⟨fun e => encode_ne_dollar (Nat.mod_lt _ (by decide)) e.symm,
      fun e => encode_ne_dollar (Nat.mod_lt _ (by decide)) e.symm,
      fun e => encode_ne_dollar (Nat.mod_lt _ (by decide)) e.symm,
      fun e => encode_ne_dollar (Nat.mod_lt _ (by decide)) e.symm, ih⟩
  | case2 a b =>
    simp only [EncodeToString, List.mem_cons, not_or, List.mem_nil_iff, not_false_eq_true,
      and_true]
    exact ⟨fun e => encode_ne_dollar (Nat.mod_lt _ (by decide)) e.symm,
      fun e => encode_ne_dollar (Nat.mod_lt _ (by decide)) e.symm,
      fun e => encode_ne_dollar (Nat.mod_lt _ (by decide)) e.symm⟩
  | case3 a =>
    simp only [EncodeToString, List.mem_cons, not_or, List.mem_nil_iff, not_false_eq_true,
      and_true]
    exact ⟨fun e => encode_ne_dollar (Nat.mod_lt _ (by decide)) e.symm,
      fun e => encode_ne_dollar (Nat.mod_lt _ (by decide)) e.symm⟩
  | case4 => simp [EncodeToString]

theorem decodeLoop_cons_value (c : Byte) (cs : List Byte) (si : Nat) (dbuf : List Nat)
    (dst : List Byte) (h : decodeMap c ≠ 0xFF) :
    decodeLoop (c :: cs) si dbuf dst =
      match dbuf with
      | [d0, d1, d2] =>
        decodeLoop cs (si + 1) []
          (dst ++ [toByte ((d0 * 262144 + d1 * 4096 + d2 * 64 + decodeMap c) / 65536),
            toByte ((d0 * 262144 + d1 * 4096 + d2 * 64 + decodeMap c) / 256),
            toByte (d0 * 262144 + d1 * 4096 + d2 * 64 + decodeMap c)])
      | _ => decodeLoop cs (si + 1) (dbuf ++ [decodeMap c]) dst := by
  split
  · rw [decodeLoop, if_pos h]
  · rename_i hd
    rw [decodeLoop, if_pos h]
    exact hd

theorem decodeLoop_cons_skip (c : Byte) (cs : List Byte) (si : Nat) (dbuf : List Nat)
    (dst : List Byte) (h : decodeMap c = 0xFF) (h2 : c = 10 ∨ c = 13) :
    decodeLoop (c :: cs) si dbuf dst = decodeLoop cs (si + 1) dbuf dst := by
  by_cases hd : ∃ d0 d1 d2, dbuf = [d0, d1, d2]
  · obtain ⟨d0, d1, d2, rfl⟩ := hd
    rw [decodeLoop, if_neg (not_not.mpr h), if_pos h2]
  · rw [decodeLoop, if_neg (not_not.mpr h), if_pos h2]
    exact fun d0 d1 d2 e => hd ⟨d0, d1, d2, e⟩

theorem decodeLoop_cons_corrupt (c : Byte) (cs : List Byte) (si : Nat) (dbuf : List Nat)
    (dst : List Byte) (h : decodeMap c = 0xFF) (h1 : c ≠ 10) (h2 : c ≠ 13) :
    decodeLoop (c :: cs) si dbuf dst = .error si := by
  have h3 : ¬ (c = 10 ∨ c = 13) := fun e => e.elim h1 h2
  by_cases hd : ∃ d0 d1 d2, dbuf = [d0, d1, d2]
  · obtain ⟨d0, d1, d2, rfl⟩ := hd
    rw [decodeLoop, if_neg (not_not.mpr h), if_neg h3]
  · rw [decodeLoop, if_neg (not_not.mpr h), if_neg h3]
    exact fun d0 d1 d2 e => hd ⟨d0, d1, d2, e⟩

theorem decodeMap_encode_ne {v : Nat} (h : v < 64) : decodeMap (encode v) ≠ 0xFF := by
  rw [decodeMap_encode h]; omega

theorem decodeLoop_value0 {v : Nat} (h : v < 64) (cs : List Byte) (si : Nat) (dst : List Byte) :
    decodeLoop (encode v :: cs) si [] dst = decodeLoop cs (si + 1) [v] dst := by
  rw [decodeLoop_cons_value _ _ _ _ _ (decodeMap_encode_ne h), decodeMap_encode h]
  rfl

theorem decodeLoop_value1 {v : Nat} (h : v < 64) (cs : List Byte) (si d0 : Nat)
    (dst : List Byte) :
    decodeLoop (encode v :: cs) si [d0] dst = decodeLoop cs (si + 1) [d0, v] dst := by
  rw [decodeLoop_cons_value _ _ _ _ _ (decodeMap_encode_ne h), decodeMap_encode h]
  rfl

theorem decodeLoop_value2 {v : Nat} (h : v < 64) (cs : List Byte) (si d0 d1 : Nat)
    (dst : List Byte) :
    decodeLoop (encode v :: cs) si [d0, d1] dst = decodeLoop cs (si + 1) [d0, d1, v] dst := by
  rw [decodeLoop_cons_value _ _ _ _ _ (decodeMap_encode_ne h), decodeMap_encode h]
  rfl

theorem decodeLoop_value3 {v : Nat} (h : v < 64) (cs : List Byte) (si d0 d1 d2 : Nat)
    (dst : List Byte) :
    decodeLoop (encode v :: cs) si [d0, d1, d2] dst =
      decodeLoop cs (si + 1) []
        (dst ++ [toByte ((d0 * 262144 + d1 * 4096 + d2 * 64 + v) / 65536),
          toByte ((d0 * 262144 + d1 * 4096 + d2 * 64 + v) / 256),
          toByte (d0 * 262144 + d1 * 4096 + d2 * 64 + v)]) := by
  rw [decodeLoop_cons_value _ _ _ _ _ (decodeMap_encode_ne h), decodeMap_encode h]

/-- Decoding what `EncodeToString` wrote gives the bytes back. -/
theorem decodeLoop_EncodeToString (bs : List Byte) :
    ∀ (si : Nat) (dst : List Byte), decodeLoop (EncodeToString bs) si [] dst = .ok (dst ++ bs) := by
  have h64 : ∀ n : Nat, n % 64 < 64 := fun n => Nat.mod_lt _ (by decide)
  induction bs using EncodeToString.induct with
  | case1 a b c rest ih =>
    intro si dst
    rw [EncodeToString, decodeLoop_value0 (h64 _), decodeLoop_value1 (h64 _),
      decodeLoop_value2 (h64 _), decodeLoop_value3 (h64 _), ih]
    have ha := a.isLt
    have hb := b.isLt
    have hc := c.isLt
    have e1 : toByte ((((a.val * 65536 + b.val * 256 + c.val) / 262144 % 64) * 262144
        + ((a.val * 65536 + b.val * 256 + c.val) / 4096 % 64) * 4096
        + ((a.val * 65536 + b.val * 256 + c.val) / 64 % 64) * 64
        + (a.val * 65536 + b.val * 256 + c.val) % 64) / 65536) = a := by
      apply Fin.ext; simp only [toByte]; omega
    have e2 : toByte ((((a.val * 65536 + b.val * 256 + c.val) / 262144 % 64) * 262144
        + ((a.val * 65536 + b.val * 256 + c.val) / 4096 % 64) * 4096
        + ((a.val * 65536 + b.val * 256 + c.val) / 64 % 64) * 64
        + (a.val * 65536 + b.val * 256 + c.val) % 64) / 256) = b := by
      apply Fin.ext; simp only [toByte]; omega
    have e3 : toByte ((((a.val * 65536 + b.val * 256 + c.val) / 262144 % 64) * 262144
        + ((a.val * 65536 + b.val * 256 + c.val) / 4096 % 64) * 4096
        + ((a.val * 65536 + b.val * 256 + c.val) / 64 % 64) * 64
        + (a.val * 65536 + b.val * 256 + c.val) % 64)) = c := by
      apply Fin.ext; simp only [toByte]; omega
    rw [e1, e2, e3]
    simp
  | case2 a b =>
    intro si dst
    rw [EncodeToString, decodeLoop_value0 (h64 _), decodeLoop_value1 (h64 _),
      decodeLoop_value2 (h64 _), decodeLoop]
    have ha := a.isLt
    have hb := b.isLt
    have e1 : toByte ((((a.val * 65536 + b.val * 256) / 262144 % 64) * 262144
        + ((a.val * 65536 + b.val * 256) / 4096 % 64) * 4096
        + ((a.val * 65536 + b.val * 256) / 64 % 64) * 64) / 65536) = a := by
      apply Fin.ext; simp only [toByte]; omega
    have e2 : toByte ((((a.val * 65536 + b.val * 256) / 262144 % 64) * 262144
        + ((a.val * 65536 + b.val * 256) / 4096 % 64) * 4096
        + ((a.val * 65536 + b.val * 256) / 64 % 64) * 64) / 256) = b := by
      apply Fin.ext; simp only [toByte]; omega
    simp only [e1, e2]
  | case3 a =>
    intro si dst
    rw [EncodeToString, decodeLoop_value0 (h64 _), decodeLoop_value1 (h64 _), decodeLoop]
    have ha := a.isLt
    have e1 : toByte ((((a.val * 65536) / 262144 % 64) * 262144
        + ((a.val * 65536) / 4096 % 64) * 4096) / 65536) = a := by
      apply Fin.ext; simp only [toByte]; omega
    simp only [e1]
  | case4 =>
    intro si dst
    simp [EncodeToString, decodeLoop]

theorem DecodeString_EncodeToString (bs : List Byte) :
    DecodeString (EncodeToString bs) = .ok bs := by
  simpa [DecodeString] using decodeLoop_EncodeToString bs 0 []

theorem EncodeToString_injective {a b : List Byte} (h : EncodeToString a = EncodeToString b) :
    a = b := by
  have h1 := DecodeString_EncodeToString a
  rw [h, DecodeString_EncodeToString] at h1
  exact (Except.ok.inj h1).symm

/-- A byte neither of the alphabet nor a line break, after bytes that are one
or the other, is reported at its own index. -/
theorem decodeLoop_corrupt (pre : List Byte) (c : Byte) (post : List Byte)
    (hpre : ∀ x ∈ pre, decodeMap x ≠ 0xFF ∨ x = 10 ∨ x = 13)
    (hc : decodeMap c = 0xFF) (hc1 : c ≠ 10) (hc2 : c ≠ 13) :
    ∀ (si : Nat) (dbuf : List Nat) (dst : List Byte),
      decodeLoop (pre ++ c :: post) si dbuf dst = .error (si + pre.length) := by
  induction pre with
  | nil =>
    intro si dbuf dst
    rw [List.nil_append, decodeLoop_cons_corrupt _ _ _ _ _ hc hc1 hc2]
    rfl
  | cons x xs ih =>
    intro si dbuf dst
    have hxs : ∀ y ∈ xs, decodeMap y ≠ 0xFF ∨ y = 10 ∨ y = 13 :=
      fun y hy => hpre y (List.mem_cons_of_mem _ hy)
    have e : si + 1 + xs.length = si + (x :: xs).length := by
      rw [List.length_cons]; omega
    by_cases hx : decodeMap x ≠ 0xFF
    · rw [List.cons_append, decodeLoop_cons_value _ _ _ _ _ hx]
      split <;> rw [ih hxs, e]
    · have hx2 : x = 10 ∨ x = 13 := by
        rcases hpre x (by simp) with h | h
        · exact absurd h hx
        · exact h
      rw [List.cons_append, decodeLoop_cons_skip _ _ _ _ _ (not_not.mp hx) hx2, ih hxs, e]

/-! ## Facts about `DecodeHash` and the format of `GenerateHash` -/


theorem isDigit_ne_dollar {c : Byte} (h : isDigit c = true) : c ≠ dollar := by
  intro e
  subst e
  exact absurd h (by decide)

theorem formatUint_nodollar (u : Nat) : dollar ∉ formatUint u :=
  fun hm => isDigit_ne_dollar (formatUint_digits u _ hm) rfl

theorem formatInt_nodollar (i : Int) : dollar ∉ formatInt i := by
  unfold formatInt
  split
  · simp only [List.mem_cons, not_or]
    exact ⟨by decide, formatUint_nodollar _⟩
  · exact formatUint_nodollar _

theorem versionField_nodollar (version : Int) : dollar ∉ versionField version := by
  simp only [versionField, List.mem_append, not_or]
  exact ⟨by decide, formatInt_nodollar _⟩

theorem costField_nodollar (t m p : Nat) : dollar ∉ costField t m p := by
  simp only [costField, List.mem_append, not_or]
  exact ⟨⟨⟨⟨⟨by decide, formatUint_nodollar _⟩, by decide⟩, formatUint_nodollar _⟩, by decide⟩,
    formatUint_nodollar _⟩

theorem formatHash_eq (version : Int) (t m p : Nat) (salt key : List Byte) :
    formatHash version t m p salt key =
      [] ++ dollar :: (ascii "argon2id" ++ dollar :: (versionField version ++ dollar ::
        (costField t m p ++ dollar :: (EncodeToString salt ++ dollar :: EncodeToString key)))) := by
  have e1 : ascii "$argon2id$v=" = dollar :: (ascii "argon2id" ++ dollar :: ascii "v=") := by
    decide
  have e2 : ascii "$t=" = dollar :: ascii "t=" := by decide
  have e3 : ascii "$" = [dollar] := by decide
  simp only [formatHash, versionField, costField, e1, e2, e3, List.append_assoc,
    List.cons_append, List.nil_append, List.singleton_append]

/-- The six fields of a string written in the format of `GenerateHash`. -/
theorem Split_formatHash (version : Int) (t m p : Nat) (salt key : List Byte) :
    Split (formatHash version t m p salt key) =
      [[], ascii "argon2id", versionField version, costField t m p, EncodeToString salt,
        EncodeToString key] := by
  rw [formatHash_eq, Split_append _ _ (by simp), Split_append _ _ (by decide),
    Split_append _ _ (versionField_nodollar _), Split_append _ _ (costField_nodollar _ _ _),
    Split_append _ _ (EncodeToString_nodollar _), Split_nodollar (EncodeToString_nodollar _)]

/-- The function `DecodeHash` on a string of six fields. -/
theorem DecodeHash_fields {h f0 f1 f2 f3 f4 f5 : List Byte} (hs : Split h = [f0, f1, f2, f3, f4, f5]) :
    DecodeHash h =
      if f0 ≠ [] ∨ f1 ≠ ascii "argon2id" then .error .ErrIncompatableArgon2Version
      else
        match SscanfVersion f2 with
        | .error e => .error (.scan e)
        | .ok version =>
          if argon2Version ≠ version then .error .ErrIncompatableArgon2Version
          else
            match SscanfCosts f3 with
            | .error e => .error (.scan e)
            | .ok (time, memory, threads) =>
              match DecodeString f4 with
              | .error n => .error (.CorruptInputError n)
              | .ok salt =>
                match DecodeString f5 with
                | .error n => .error (.CorruptInputError n)
                | .ok key =>
                  .ok { Version := version, Time := time, Memory := memory, Threads := threads,
                        KeyLen := key.length % 2 ^ 32, Salt := salt, Key := key } := by
  unfold DecodeHash
  rw [hs]

theorem DecodeHash_count {h : List Byte} (hl : (Split h).length ≠ 6) :
    DecodeHash h = .error .ErrInvalidArgon2FieldCount := by
  unfold DecodeHash
  split
  · rename_i heq
    rw [heq] at hl
    exact absurd rfl hl
  · rfl

theorem length_six {l : List (List Byte)} (h : l.length = 6) :
    ∃ f0 f1 f2 f3 f4 f5, l = [f0, f1, f2, f3, f4, f5] := by
  match l, h with
  | [f0, f1, f2, f3, f4, f5], _ => exact ⟨f0, f1, f2, f3, f4, f5, rfl⟩

theorem DecodeHash_badStart {h f0 f1 f2 f3 f4 f5 : List Byte}
    (hs : Split h = [f0, f1, f2, f3, f4, f5]) (hp : f0 ≠ [] ∨ f1 ≠ ascii "argon2id") :
    DecodeHash h = .error .ErrIncompatableArgon2Version := by
  rw [DecodeHash_fields hs, if_pos hp]

theorem DecodeHash_scanVersion {h f0 f1 f2 f3 f4 f5 : List Byte} {e : ScanError}
    (hs : Split h = [f0, f1, f2, f3, f4, f5]) (h0 : f0 = []) (h1 : f1 = ascii "argon2id")
    (hv : SscanfVersion f2 = .error e) : DecodeHash h = .error (.scan e) := by
  have hp : ¬ (f0 ≠ [] ∨ f1 ≠ ascii "argon2id") := by simp [h0, h1]
  rw [DecodeHash_fields hs, if_neg hp, hv]

theorem DecodeHash_version {h f0 f1 f2 f3 f4 f5 : List Byte} {v : Int}
    (hs : Split h = [f0, f1, f2, f3, f4, f5]) (h0 : f0 = []) (h1 : f1 = ascii "argon2id")
    (hv : SscanfVersion f2 = .ok v) (hne : v ≠ argon2Version) :
    DecodeHash h = .error .ErrIncompatableArgon2Version := by
  have hp : ¬ (f0 ≠ [] ∨ f1 ≠ ascii "argon2id") := by simp [h0, h1]
  rw [DecodeHash_fields hs, if_neg hp, hv]
  simp only []
  rw [if_pos (fun e => hne e.symm)]

theorem DecodeHash_scanCosts {h f0 f1 f2 f3 f4 f5 : List Byte} {e : ScanError}
    (hs : Split h = [f0, f1, f2, f3, f4, f5]) (h0 : f0 = []) (h1 : f1 = ascii "argon2id")
    (hv : SscanfVersion f2 = .ok argon2Version) (hc : SscanfCosts f3 = .error e) :
    DecodeHash h = .error (.scan e) := by
  have hp : ¬ (f0 ≠ [] ∨ f1 ≠ ascii "argon2id") := by simp [h0, h1]
  rw [DecodeHash_fields hs, if_neg hp, hv]
  simp only [ne_eq, not_true_eq_false, if_false, hc]

theorem DecodeHash_salt {h f0 f1 f2 f3 f4 f5 : List Byte} {t m p n : Nat}
    (hs : Split h = [f0, f1, f2, f3, f4, f5]) (h0 : f0 = []) (h1 : f1 = ascii "argon2id")
    (hv : SscanfVersion f2 = .ok argon2Version) (hc : SscanfCosts f3 = .ok (t, m, p))
    (h4 : DecodeString f4 = .error n) : DecodeHash h = .error (.CorruptInputError n) := by
  have hp : ¬ (f0 ≠ [] ∨ f1 ≠ ascii "argon2id") := by simp [h0, h1]
  rw [DecodeHash_fields hs, if_neg hp, hv]
  simp only [ne_eq, not_true_eq_false, if_false, hc, h4]

theorem DecodeHash_key {h f0 f1 f2 f3 f4 f5 salt : List Byte} {t m p n : Nat}
    (hs : Split h = [f0, f1, f2, f3, f4, f5]) (h0 : f0 = []) (h1 : f1 = ascii "argon2id")
    (hv : SscanfVersion f2 = .ok argon2Version) (hc : SscanfCosts f3 = .ok (t, m, p))
    (h4 : DecodeString f4 = .ok salt) (h5 : DecodeString f5 = .error n) :
    DecodeHash h = .error (.CorruptInputError n) := by
  have hp : ¬ (f0 ≠ [] ∨ f1 ≠ ascii "argon2id") := by simp [h0, h1]
  rw [DecodeHash_fields hs, if_neg hp, hv]
  simp only [ne_eq, not_true_eq_false, if_false, hc, h4, h5]

theorem DecodeHash_ok {h f0 f1 f2 f3 f4 f5 salt key : List Byte} {t m p : Nat}
    (hs : Split h = [f0, f1, f2, f3, f4, f5]) (h0 : f0 = []) (h1 : f1 = ascii "argon2id")
    (hv : SscanfVersion f2 = .ok argon2Version) (hc : SscanfCosts f3 = .ok (t, m, p))
    (h4 : DecodeString f4 = .ok salt) (h5 : DecodeString f5 = .ok key) :
    DecodeHash h =
      .ok { Version := argon2Version, Time := t, Memory := m, Threads := p,
            KeyLen := key.length % 2 ^ 32, Salt := salt, Key := key } := by
  have hp : ¬ (f0 ≠ [] ∨ f1 ≠ ascii "argon2id") := by simp [h0, h1]
  rw [DecodeHash_fields hs, if_neg hp, hv]
  simp only [ne_eq, not_true_eq_false, if_false, hc, h4, h5]

/-- What a successful `DecodeHash` went through. -/
theorem DecodeHash_ok_inv {h f0 f1 f2 f3 f4 f5 : List Byte} {d : Argon2Params}
    (hs : Split h = [f0, f1, f2, f3, f4, f5]) (hd : DecodeHash h = .ok d) :
    f0 = [] ∧ f1 = ascii "argon2id" ∧ SscanfVersion f2 = .ok argon2Version ∧
      SscanfCosts f3 = .ok (d.Time, d.Memory, d.Threads) ∧ DecodeString f4 = .ok d.Salt ∧
      DecodeString f5 = .ok d.Key ∧ d.Version = argon2Version ∧
      d.KeyLen = d.Key.length % 2 ^ 32 := by
  by_cases hp : f0 ≠ [] ∨ f1 ≠ ascii "argon2id"
  · rw [DecodeHash_badStart hs hp] at hd
    exact absurd hd (by simp)
  · have h0 : f0 = [] := by
      by_contra hne
      exact hp (Or.inl hne)
    have h1 : f1 = ascii "argon2id" := by
      by_contra hne
      exact hp (Or.inr hne)
    cases hv : SscanfVersion f2 with
    | error e =>
      rw [DecodeHash_scanVersion hs h0 h1 hv] at hd
      exact absurd hd (by simp)
    | ok v =>
      by_cases hne : v = argon2Version
      · subst hne
        cases hc : SscanfCosts f3 with
        | error e =>
          rw [DecodeHash_scanCosts hs h0 h1 hv hc] at hd
          exact absurd hd (by simp)
        | ok tmp =>
          obtain ⟨t, m, p⟩ := tmp
          cases h4 : DecodeString f4 with
          | error n =>
            rw [DecodeHash_salt hs h0 h1 hv hc h4] at hd
            exact absurd hd (by simp)
          | ok salt =>
            cases h5 : DecodeString f5 with
            | error n =>
              rw [DecodeHash_key hs h0 h1 hv hc h4 h5] at hd
              exact absurd hd (by simp)
            | ok key =>
              rw [DecodeHash_ok hs h0 h1 hv hc h4 h5] at hd
              have hd2 := Except.ok.inj hd
              subst hd2
              exact ⟨h0, h1, rfl, rfl, rfl, rfl, rfl, rfl⟩
      · rw [DecodeHash_version hs h0 h1 hv hne] at hd
        exact absurd hd (by simp)

theorem SscanfVersion_current : SscanfVersion (versionField argon2Version) = .ok argon2Version := by
  decide

/-- The function `DecodeHash` reads back what the format of `GenerateHash` wrote. -/
theorem DecodeHash_formatHash (t m p : Nat) (salt key : List Byte) (ht : t < 2 ^ 32)
    (hm : m < 2 ^ 32) (hp : p < 2 ^ 8) :
    DecodeHash (formatHash argon2Version t m p salt key) =
      .ok { Version := argon2Version, Time := t, Memory := m, Threads := p,
            KeyLen := key.length % 2 ^ 32, Salt := salt, Key := key } :=
  DecodeHash_ok (Split_formatHash _ _ _ _ _ _) rfl rfl SscanfVersion_current
    (SscanfCosts_format t m p ht hm hp) (DecodeString_EncodeToString salt)
    (DecodeString_EncodeToString key)

theorem GenerateHash_ok (kdf : Kdf) (rd : RandRead) (secret : List Byte) (herr : rd.err = none)
    (hn : rd.n = rd.salt.length) :
    GenerateHash kdf rd secret =
      .ok (.ok (formatHash argon2Version 1 65536 4 rd.salt (kdf secret rd.salt 1 65536 4 32))) := by
  simp [GenerateHash, herr, hn, IDKey]


theorem advance_ok_inv (lit : List Byte) : ∀ {s r : List Byte}, advance lit s = .ok r →
    s = lit ++ r := by
  induction lit with
  | nil =>
    intro s r h
    cases s <;> simp [advance] at h <;> simp [h]
  | cons f fs ih =>
    intro s r h
    cases s with
    | nil => simp [advance] at h
    | cons c cs =>
      by_cases hc : c = f
      · subst hc
        simp only [advance, if_true] at h
        rw [ih h]
        rfl
      · simp [advance, hc] at h

theorem takeRunes_isInitial (n : Nat) : ∀ s : List Byte, ∃ t, s = takeRunes n s ++ t := by
  induction n with
  | zero => intro s; exact ⟨s, by simp [takeRunes]⟩
  | succ n ih =>
    intro s
    cases s with
    | nil => exact ⟨[], by simp [takeRunes]⟩
    | cons c cs =>
      obtain ⟨t, ht⟩ := ih ((c :: cs).drop (DecodeRune (c :: cs)).2)
      refine ⟨t, ?_⟩
      simp only [takeRunes, List.append_assoc]
      rw [← ht, List.take_append_drop]

theorem scanInput_isInitial (s : List Byte) : ∃ t, s = scanInput s ++ t := by
  unfold scanInput
  split
  · exact ⟨[], by simp⟩
  · exact takeRunes_isInitial _ s

theorem SscanfVersion_ok_starts {f : List Byte} {v : Int} (h : SscanfVersion f = .ok v) :
    ∃ r, f = ascii "v=" ++ r := by
  unfold SscanfVersion at h
  cases ha : advance (ascii "v=") (scanInput f) with
  | error e => rw [ha] at h; simp at h
  | ok s0 =>
    obtain ⟨t, ht⟩ := scanInput_isInitial f
    refine ⟨s0 ++ t, ?_⟩
    rw [← List.append_assoc, ← advance_ok_inv _ ha, ← ht]

theorem SscanfCosts_ok_starts {f : List Byte} {x : Nat × Nat × Nat}
    (h : SscanfCosts f = .ok x) : ∃ r, f = ascii "t=" ++ r := by
  unfold SscanfCosts at h
  cases ha : advance (ascii "t=") (scanInput f) with
  | error e => rw [ha] at h; simp at h
  | ok s0 =>
    obtain ⟨t, ht⟩ := scanInput_isInitial f
    refine ⟨s0 ++ t, ?_⟩
    rw [← List.append_assoc, ← advance_ok_inv _ ha, ← ht]

/-! ## Facts about white space and the fields `fmt.Sscanf` accepts -/

theorem isSpace_iff (r : Nat) :
    isSpace r = true ↔
      ((9 ≤ r ∧ r ≤ 13) ∨ r = 0x20 ∨ r = 0x85 ∨ r = 0xa0 ∨ r = 0x1680 ∨
        (0x2000 ≤ r ∧ r ≤ 0x200a) ∨ (0x2028 ≤ r ∧ r ≤ 0x2029) ∨ r = 0x202f ∨ r = 0x205f ∨
        r = 0x3000) := by
  simp only [isSpace, Bool.or_eq_true, Bool.and_eq_true, decide_eq_true_eq, beq_iff_eq]
  omega

/-- The outcomes of `DecodeRune` on a non-empty input: an invalid encoding, an
ASCII byte, or a rune of two, three or four bytes. -/
theorem DecodeRune_cases (c : Byte) (cs : List Byte) :
    DecodeRune (c :: cs) = (RuneError, 1) ∨
      (c.val < 0x80 ∧ DecodeRune (c :: cs) = (c.val, 1)) ∨
      (∃ b1 tl, cs = b1 :: tl ∧ 0xC2 ≤ c.val ∧ c.val < 0xE0 ∧ 0x80 ≤ b1.val ∧ b1.val ≤ 0xBF ∧
        DecodeRune (c :: cs) = ((c.val % 32) * 64 + b1.val % 64, 2)) ∨
      (∃ b1 b2 tl, cs = b1 :: b2 :: tl ∧ 0xE0 ≤ c.val ∧ c.val < 0xF0 ∧
        (c.val = 0xE0 → 0xA0 ≤ b1.val) ∧ 0x80 ≤ b1.val ∧ b1.val ≤ 0xBF ∧
        0x80 ≤ b2.val ∧ b2.val ≤ 0xBF ∧
        DecodeRune (c :: cs) = ((c.val % 16) * 4096 + (b1.val % 64) * 64 + b2.val % 64, 3)) ∨
      (∃ r, 0x10000 ≤ r ∧ DecodeRune (c :: cs) = (r, 4)) := by
  have hc := c.isLt
  by_cases h1 : c.val < 0x80
  · exact Or.inr (Or.inl ⟨h1, DecodeRune_ascii c cs h1⟩)
  by_cases h2 : c.val < 0xC2
  · left
    simp only [DecodeRune, h1, h2, if_true, if_false]
  by_cases h3 : c.val < 0xE0
  · cases cs with
    | nil =>
      left
      simp only [DecodeRune, h1, h2, h3, if_true, if_false]
    | cons b1 tl =>
      by_cases h6 : inRange 0x80 0xBF b1 = true
      · right; right; left
        have h6' := h6
        simp only [inRange, Bool.and_eq_true, decide_eq_true_eq] at h6'
        refine ⟨b1, tl, rfl, by omega, h3, h6'.1, h6'.2, ?_⟩
        simp only [DecodeRune, h1, h2, h3, h6, Bool.false_eq_true, if_true, if_false]
      · left
        simp only [DecodeRune, h1, h2, h3, h6, Bool.false_eq_true, if_true, if_false]
  by_cases h4 : c.val < 0xF0
  · rcases cs with _ | ⟨b1, _ | ⟨b2, tl⟩⟩
    · left
      simp only [DecodeRune, h1, h2, h3, h4, if_true, if_false]
    · left
      simp only [DecodeRune, h1, h2, h3, h4, if_true, if_false]
    · by_cases h6 : (inRange (if c.val = 0xE0 then 0xA0 else 0x80)
          (if c.val = 0xED then 0x9F else 0xBF) b1 && inRange 0x80 0xBF b2) = true
      · right; right; right; left
        have h6' := h6
        simp only [inRange, Bool.and_eq_true, decide_eq_true_eq] at h6'
        obtain ⟨⟨ha, hb⟩, hc1, hc2⟩ := h6'
        refine ⟨b1, b2, tl, rfl, by omega, h4, ?_, ?_, ?_, hc1, hc2, ?_⟩
        · intro he
          rw [if_pos he] at ha
          exact ha
        · split_ifs at ha <;> omega
        · split_ifs at hb <;> omega
        · simp only [DecodeRune, h1, h2, h3, h4, h6, Bool.false_eq_true, if_true, if_false]
      · left
        simp only [DecodeRune, h1, h2, h3, h4, h6, Bool.false_eq_true, if_true, if_false]
  by_cases h5 : c.val < 0xF5
  · rcases cs with _ | ⟨b1, _ | ⟨b2, _ | ⟨b3, tl⟩⟩⟩
    · left
      simp only [DecodeRune, h1, h2, h3, h4, h5, if_true, if_false]
    · left
      simp only [DecodeRune, h1, h2, h3, h4, h5, if_true, if_false]
    · left
      simp only [DecodeRune, h1, h2, h3, h4, h5, if_true, if_false]
    · by_cases h6 : (inRange (if c.val = 0xF0 then 0x90 else 0x80)
          (if c.val = 0xF4 then 0x8F else 0xBF) b1 && inRange 0x80 0xBF b2
            && inRange 0x80 0xBF b3) = true
      · right; right; right; right
        have h6' := h6
        simp only [inRange, Bool.and_eq_true, decide_eq_true_eq] at h6'
        obtain ⟨⟨⟨ha, hb⟩, -⟩, -⟩ := h6'
        have hb1 := b1.isLt
        refine ⟨(c.val % 8) * 262144 + (b1.val % 64) * 4096 + (b2.val % 64) * 64 + b3.val % 64,
          ?_, ?_⟩
        · split_ifs at ha hb <;> omega
        · simp only [DecodeRune, h1, h2, h3, h4, h5, h6, Bool.false_eq_true, if_true, if_false]
      · left
        simp only [DecodeRune, h1, h2, h3, h4, h5, h6, Bool.false_eq_true, if_true, if_false]
  · left
    simp only [DecodeRune, h1, h2, h3, h4, h5, if_true, if_false]

theorem space_three_bytes (c b1 b2 : Byte) (h1 : 0xE0 ≤ c.val) (h2 : c.val < 0xF0)
    (h3 : c.val = 0xE0 → 0xA0 ≤ b1.val) (h4 : 0x80 ≤ b1.val) (h5 : b1.val ≤ 0xBF)
    (h6 : 0x80 ≤ b2.val) (h7 : b2.val ≤ 0xBF)
    (h : isSpace ((c.val % 16) * 4096 + (b1.val % 64) * 64 + b2.val % 64) = true) :
    spaceEncoding [c, b1, b2] = true := by
  rw [isSpace_iff] at h
  obtain ⟨x, hx⟩ : ∃ x, c.val = 224 + x := ⟨c.val - 224, by omega⟩
  obtain ⟨y, hy⟩ : ∃ y, b1.val = 128 + y := ⟨b1.val - 128, by omega⟩
  obtain ⟨z, hz⟩ : ∃ z, b2.val = 128 + z := ⟨b2.val - 128, by omega⟩
  have e1 : c.val % 16 = x := by omega
  have e2 : b1.val % 64 = y := by omega
  have e3 : b2.val % 64 = z := by omega
  rw [e1, e2, e3] at h
  simp only [spaceEncoding, decide_eq_true_eq, hx, hy, hz]
  have hx16 : x < 16 := by omega
  have hy64 : y < 64 := by omega
  have hz64 : z < 64 := by omega
  have hy0 : x = 0 → 32 ≤ y := fun e => by
    have := h3 (by omega)
    omega
  clear e1 e2 e3 hx hy hz h1 h2 h3 h4 h5 h6 h7
  rcases h with h | h | h | h | h | h | h | h | h | h
  · exfalso; omega
  · exfalso; omega
  · exfalso; omega
  · exfalso; omega
  · obtain ⟨rfl, rfl, rfl⟩ : x = 1 ∧ y = 26 ∧ z = 0 := by omega
    simp
  · obtain ⟨rfl, rfl, hz⟩ : x = 2 ∧ y = 0 ∧ z ≤ 10 := by omega
    right; left
    exact ⟨rfl, rfl, Or.inl ⟨by omega, by omega⟩⟩
  · obtain ⟨rfl, rfl, hz⟩ : x = 2 ∧ y = 0 ∧ (z = 40 ∨ z = 41) := by omega
    right; left
    refine ⟨rfl, rfl, Or.inr ?_⟩
    rcases hz with rfl | rfl <;> simp
  · obtain ⟨rfl, rfl, rfl⟩ : x = 2 ∧ y = 0 ∧ z = 47 := by omega
    simp
  · obtain ⟨rfl, rfl, rfl⟩ : x = 2 ∧ y = 1 ∧ z = 31 := by omega
    simp
  · obtain ⟨rfl, rfl, rfl⟩ : x = 3 ∧ y = 0 ∧ z = 0 := by omega
    simp

theorem space_two_bytes (c b1 : Byte) (h1 : 0xC2 ≤ c.val) (h2 : c.val < 0xE0)
    (h4 : 0x80 ≤ b1.val) (h5 : b1.val ≤ 0xBF)
    (h : isSpace ((c.val % 32) * 64 + b1.val % 64) = true) :
    spaceEncoding [c, b1] = true := by
  rw [isSpace_iff] at h
  obtain ⟨x, hx⟩ : ∃ x, c.val = 192 + x := ⟨c.val - 192, by omega⟩
  obtain ⟨y, hy⟩ : ∃ y, b1.val = 128 + y := ⟨b1.val - 128, by omega⟩
  have e1 : c.val % 32 = x := by omega
  have e2 : b1.val % 64 = y := by omega
  rw [e1, e2] at h
  simp only [spaceEncoding, decide_eq_true_eq, hx, hy]
  have hx2 : 2 ≤ x := by omega
  have hx32 : x < 32 := by omega
  have hy64 : y < 64 := by omega
  clear e1 e2 hx hy h1 h2 h4 h5
  rcases h with h | h | h | h | h | h | h | h | h | h
  · exfalso; omega
  · exfalso; omega
  · obtain ⟨rfl, rfl⟩ : x = 2 ∧ y = 5 := by omega
    simp
  · obtain ⟨rfl, rfl⟩ : x = 2 ∧ y = 32 := by omega
    simp
  all_goals exfalso; omega

theorem space_one_byte (c : Byte) (hlt : c.val < 0x80) (h : isSpace c.val = true)
    (hn : c.val ≠ 0x0A) : spaceEncoding [c] = true := by
  rw [isSpace_iff] at h
  simp only [spaceEncoding, decide_eq_true_eq]
  omega

/-- A space rune other than the line feed is read from one of the encodings of
`spaceEncoding`. -/
theorem DecodeRune_space (c : Byte) (cs : List Byte)
    (h : isSpace (DecodeRune (c :: cs)).1 = true) (hn : (DecodeRune (c :: cs)).1 ≠ 0x0A) :
    spaceEncoding ((c :: cs).take (DecodeRune (c :: cs)).2) = true := by
  rcases DecodeRune_cases c cs with he | ⟨hlt, he⟩ | ⟨b1, tl, rfl, h1, h2, h3, h4, he⟩ |
    ⟨b1, b2, tl, rfl, h1, h2, h3, h4, h5, h6, h7, he⟩ | ⟨r, hr, he⟩
  · rw [he] at h
    exact absurd h (by decide)
  · rw [he] at h hn ⊢
    exact space_one_byte c hlt h hn
  · rw [he] at h ⊢
    exact space_two_bytes c b1 h1 h2 h3 h4 h
  · rw [he] at h ⊢
    exact space_three_bytes c b1 b2 h1 h2 h3 h4 h5 h6 h7 h
  · rw [he, isSpace_iff] at h
    simp only at h
    omega

/-- An encoding of `spaceEncoding` in front of any input is read as one space
rune other than the line feed. -/
theorem DecodeRune_spaceEncoding (e s : List Byte) (h : spaceEncoding e = true) :
    e ≠ [] ∧ (DecodeRune (e ++ s)).2 = e.length ∧ isSpace (DecodeRune (e ++ s)).1 = true ∧
      (DecodeRune (e ++ s)).1 ≠ 0x0A := by
  match e, h with
  | [a], h =>
    simp only [spaceEncoding, decide_eq_true_eq] at h
    have hlt : a.val < 0x80 := by omega
    rw [List.singleton_append, DecodeRune_ascii a s hlt]
    refine ⟨by simp, rfl, ?_, ?_⟩
    · rw [isSpace_iff]; simp only; omega
    · simp only; omega
  | [a, b], h =>
    simp only [spaceEncoding, decide_eq_true_eq] at h
    obtain ⟨ha, hb⟩ := h
    have hr : inRange 0x80 0xBF b = true := by
      simp only [inRange, Bool.and_eq_true, decide_eq_true_eq]; omega
    have hd : DecodeRune ([a, b] ++ s) = ((a.val % 32) * 64 + b.val % 64, 2) := by
      simp only [List.cons_append, List.nil_append, DecodeRune, ha, hr, if_true]
      simp
    rw [hd]
    refine ⟨by simp, rfl, ?_, ?_⟩
    · rw [isSpace_iff]; simp only; omega
    · simp only; omega
  | [a, b, c], h =>
    simp only [spaceEncoding, decide_eq_true_eq] at h
    have ha : 0xE1 ≤ a.val ∧ a.val ≤ 0xE3 := by omega
    have hr1 : inRange 0x80 0xBF b = true := by
      simp only [inRange, Bool.and_eq_true, decide_eq_true_eq]; omega
    have hr2 : inRange 0x80 0xBF c = true := by
      simp only [inRange, Bool.and_eq_true, decide_eq_true_eq]; omega
    have hd : DecodeRune ([a, b, c] ++ s) =
        ((a.val % 16) * 4096 + (b.val % 64) * 64 + c.val % 64, 3) := by
      have h1 : ¬ a.val < 0x80 := by omega
      have h2 : ¬ a.val < 0xC2 := by omega
      have h3 : ¬ a.val < 0xE0 := by omega
      have h4 : a.val < 0xF0 := by omega
      have h5 : ¬ a.val = 0xE0 := by omega
      have h6 : ¬ a.val = 0xED := by omega
      simp only [List.cons_append, List.nil_append, DecodeRune, h1, h2, h3, h4, h5, h6, hr1, hr2,
        if_true, if_false, Bool.and_self]
    rw [hd]
    refine ⟨by simp, rfl, ?_, ?_⟩
    · rw [isSpace_iff]
      simp only
      rcases h with h | h | h | h
      · obtain ⟨h1, h2, h3⟩ := h
        rw [h1, h2, h3]; simp
      · obtain ⟨h1, h2, h3⟩ := h
        rw [h1, h2]
        omega
      · obtain ⟨h1, h2, h3⟩ := h
        rw [h1, h2, h3]; simp
      · obtain ⟨h1, h2, h3⟩ := h
        rw [h1, h2, h3]; simp
    · simp only; omega

theorem Spaces_append {a b : List Byte} (ha : Spaces a) (hb : Spaces b) : Spaces (a ++ b) := by
  induction ha with
  | nil => simpa using hb
  | cons e rest he _ ih =>
    rw [List.append_assoc]
    exact Spaces.cons e _ he ih

/-- What `SkipSpace` passes over is a run of white space. -/
theorem skipSpaceLoop_inv (fuel : Nat) : ∀ s s' : List Byte, skipSpaceLoop fuel s = .ok s' →
    ∃ sp, Spaces sp ∧ s = sp ++ s' := by
  induction fuel with
  | zero =>
    intro s s' h
    rw [skipSpaceLoop] at h
    exact ⟨[], Spaces.nil, by rw [Except.ok.inj h]; rfl⟩
  | succ f ih =>
    intro s s' h
    cases s with
    | nil =>
      simp only [skipSpaceLoop] at h
      exact ⟨[], Spaces.nil, by rw [← Except.ok.inj h]; rfl⟩
    | cons c cs =>
      rw [skipSpaceLoop] at h
      have step : isSpace (DecodeRune (c :: cs)).1 = true → (DecodeRune (c :: cs)).1 ≠ 0x0A →
          skipSpaceLoop f ((c :: cs).drop (DecodeRune (c :: cs)).2) = .ok s' →
          ∃ sp, Spaces sp ∧ c :: cs = sp ++ s' := by
        intro hsp hnl hrec
        obtain ⟨sp, hsp2, hdrop⟩ := ih _ _ hrec
        refine ⟨(c :: cs).take (DecodeRune (c :: cs)).2 ++ sp,
          Spaces.cons _ _ (DecodeRune_space c cs hsp hnl) hsp2, ?_⟩
        rw [List.append_assoc, ← hdrop, List.take_append_drop]
      by_cases h1 : (DecodeRune (c :: cs)).1 = 0x0D ∧
          ((c :: cs).drop (DecodeRune (c :: cs)).2).head? = some 0x0A
      · rw [if_pos h1] at h
        exact step (by rw [h1.1]; decide) (by rw [h1.1]; decide) h
      · rw [if_neg h1] at h
        by_cases h2 : (DecodeRune (c :: cs)).1 = 0x0A
        · rw [if_pos h2] at h
          exact absurd h (by simp)
        · rw [if_neg h2] at h
          by_cases h3 : isSpace (DecodeRune (c :: cs)).1 = true
          · rw [if_pos h3] at h
            exact step h3 h2 h
          · rw [if_neg h3] at h
            exact ⟨[], Spaces.nil, by rw [← Except.ok.inj h]; rfl⟩

theorem SkipSpace_inv {s s' : List Byte} (h : SkipSpace s = .ok s') :
    ∃ sp, Spaces sp ∧ s = sp ++ s' :=
  skipSpaceLoop_inv _ s s' h

theorem skipSpaceLoop_stops (fuel : Nat) (s : List Byte) (hs : stopsSpace s)
    (hf : s.length ≤ fuel) : skipSpaceLoop fuel s = .ok s := by
  cases s with
  | nil => cases fuel <;> rfl
  | cons c cs =>
    obtain ⟨hlt, hns⟩ := hs c rfl
    cases fuel with
    | zero => simp at hf
    | succ f =>
      have hne : ¬ (c.val = 0x0A) := by
        intro e
        rw [e] at hns
        exact absurd hns (by decide)
      have hne2 : ¬ (c.val = 0x0D) := by
        intro e
        rw [e] at hns
        exact absurd hns (by decide)
      rw [skipSpaceLoop]
      simp only [DecodeRune_ascii c cs hlt, hne, hne2, hns, false_and, if_false,
        Bool.false_eq_true]

/-- A run of white space in front of input that stops it is passed over. -/
theorem skipSpaceLoop_spaces {sp : List Byte} (hsp : Spaces sp) (s : List Byte)
    (hs : stopsSpace s) : ∀ fuel, (sp ++ s).length ≤ fuel → skipSpaceLoop fuel (sp ++ s) = .ok s := by
  induction hsp with
  | nil =>
    intro fuel hf
    exact skipSpaceLoop_stops fuel s hs hf
  | cons e rest he _ ih =>
    intro fuel hf
    obtain ⟨hne, hw, hspace, hnl⟩ := DecodeRune_spaceEncoding e (rest ++ s) he
    rw [List.append_assoc] at hf ⊢
    cases e with
    | nil => exact absurd rfl hne
    | cons c e' =>
      cases fuel with
      | zero => simp at hf
      | succ f =>
        have hlen : (rest ++ s).length ≤ f := by
          simp only [List.length_append, List.length_cons] at hf ⊢
          omega
        have hdrop : (c :: (e' ++ (rest ++ s))).drop (DecodeRune (c :: (e' ++ (rest ++ s)))).2
            = rest ++ s := by
          rw [← List.cons_append, hw, List.drop_left]
        rw [List.cons_append] at hspace hnl
        rw [List.cons_append, skipSpaceLoop]
        simp only [hdrop, hnl, hspace, if_true, if_false]
        split_ifs
        · exact ih f hlen
        · exact ih f hlen

theorem SkipSpace_spaces {sp : List Byte} (hsp : Spaces sp) (s : List Byte) (hs : stopsSpace s) :
    SkipSpace (sp ++ s) = .ok s :=
  skipSpaceLoop_spaces hsp s hs _ (le_refl _)

theorem SkipSpace_stops (s : List Byte) (hs : stopsSpace s) : SkipSpace s = .ok s :=
  skipSpaceLoop_stops _ s hs (le_refl _)

theorem noDigitAhead_dropWhile (s : List Byte) : noDigitAhead (s.dropWhile isDigit) := by
  induction s with
  | nil => intro c hc; simp at hc
  | cons x xs ih =>
    by_cases hx : isDigit x = true
    · rw [List.dropWhile_cons, if_pos hx]
      exact ih
    · rw [List.dropWhile_cons, if_neg hx]
      intro c hc
      simp only [List.head?_cons, Option.some.injEq] at hc
      subst hc
      simpa using hx

theorem takeWhile_all_digits (s : List Byte) : ∀ c ∈ s.takeWhile isDigit, isDigit c = true := by
  induction s with
  | nil => intro c hc; simp at hc
  | cons x xs ih =>
    intro c hc
    by_cases hx : isDigit x = true
    · rw [List.takeWhile_cons, if_pos hx] at hc
      rcases List.mem_cons.mp hc with e | e
      · rw [e]; exact hx
      · exact ih c e
    · rw [List.takeWhile_cons, if_neg hx] at hc
      simp at hc

theorem scanNumber_inv {s tok rest : List Byte} (h : scanNumber s = .ok (tok, rest)) :
    s = tok ++ rest ∧ Numeral tok (digitsValue tok) ∧ noDigitAhead rest := by
  cases s with
  | nil => simp [scanNumber] at h
  | cons c cs =>
    by_cases hc : isDigit c = true
    · simp only [scanNumber, hc, if_true, Except.ok.injEq, Prod.mk.injEq] at h
      obtain ⟨h1, h2⟩ := h
      subst h1 h2
      refine ⟨(List.takeWhile_append_dropWhile isDigit (c :: cs)).symm, ⟨?_, ?_, rfl⟩, ?_⟩
      · rw [List.takeWhile_cons, if_pos hc]
        simp
      · exact takeWhile_all_digits _
      · exact noDigitAhead_dropWhile _
    · simp [scanNumber, hc] at h

theorem scanNumber_numeral {d rest : List Byte} {n : Nat} (hd : Numeral d n)
    (hr : noDigitAhead rest) : scanNumber (d ++ rest) = .ok (d, rest) := by
  obtain ⟨hne, hall, -⟩ := hd
  cases d with
  | nil => exact absurd rfl hne
  | cons c cs =>
    have hc : isDigit c = true := hall c (by simp)
    have ht := takeWhile_digits (c :: cs) rest hall hr
    have hdr := dropWhile_digits (c :: cs) rest hall hr
    simp only [List.cons_append] at ht hdr
    simp only [scanNumber, List.cons_append, hc, if_true, ht, hdr]

theorem stopsSpace_digit {d rest : List Byte} {n : Nat} (hd : Numeral d n) :
    stopsSpace (d ++ rest) := by
  obtain ⟨hne, hall, -⟩ := hd
  cases d with
  | nil => exact absurd rfl hne
  | cons c cs =>
    intro x hx
    simp only [List.cons_append, List.head?_cons, Option.some.injEq] at hx
    subst hx
    have hc : isDigit c = true := hall c (by simp)
    simp only [isDigit, Bool.and_eq_true, decide_eq_true_eq] at hc
    refine ⟨by omega, ?_⟩
    rw [← Bool.not_eq_true, isSpace_iff]
    omega

/-- What one `%d` for an unsigned operand reads. -/
theorem verbUint_inv {bits n : Nat} {s rest : List Byte} (h : verbUint bits s = .ok (n, rest)) :
    ∃ sp d, Spaces sp ∧ Numeral d n ∧ noDigitAhead rest ∧ s = sp ++ d ++ rest ∧ n < 2 ^ bits := by
  unfold verbUint at h
  cases h1 : SkipSpace s with
  | error e => rw [h1] at h; simp at h
  | ok s0 =>
    rw [h1] at h
    simp only at h
    unfold scanUint at h
    cases h2 : SkipSpace s0 with
    | error e => rw [h2] at h; simp at h
    | ok s1 =>
      rw [h2] at h
      simp only at h
      cases h3 : scanNumber s1 with
      | error e => rw [h3] at h; simp at h
      | ok tr =>
        obtain ⟨tok, r⟩ := tr
        rw [h3] at h
        simp only at h
        split_ifs at h with c1 c2
        simp only [Except.ok.injEq, Prod.mk.injEq] at h
        obtain ⟨hn, hr⟩ := h
        subst hr
        obtain ⟨sp1, hsp1, e1⟩ := SkipSpace_inv h1
        obtain ⟨sp2, hsp2, e2⟩ := SkipSpace_inv h2
        obtain ⟨e3, hnum, hnd⟩ := scanNumber_inv h3
        refine ⟨sp1 ++ sp2, tok, Spaces_append hsp1 hsp2, ?_, hnd, ?_, ?_⟩
        · rw [← hn]; exact hnum
        · rw [e1, e2, e3]; simp only [List.append_assoc]
        · omega

/-- One `%d` for an unsigned operand reads a numeral after white space. -/
theorem verbUint_form {bits n : Nat} {sp d rest : List Byte} (hsp : Spaces sp)
    (hd : Numeral d n) (hr : noDigitAhead rest) (hn : n < 2 ^ bits) (hb : bits ≤ 64) :
    verbUint bits (sp ++ d ++ rest) = .ok (n, rest) := by
  have h64 : n < 2 ^ 64 := lt_of_lt_of_le hn (Nat.pow_le_pow_right (by decide) hb)
  have hst : stopsSpace (d ++ rest) := stopsSpace_digit hd
  have hv : digitsValue d = n := hd.2.2
  rw [List.append_assoc]
  simp only [verbUint, scanUint, SkipSpace_spaces hsp _ hst, SkipSpace_stops _ hst,
    scanNumber_numeral hd hr, hv]
  rw [if_neg (by omega), if_neg (by omega)]

/-- The function `scanInt` at 64 bits, once the white space is passed: the
range check of `strconv.ParseInt` decides, the check against the bit size never
fails. -/
theorem scanInt_cons {s0 cs : List Byte} {c : Byte} (h2 : SkipSpace s0 = .ok (c :: cs)) :
    scanInt 64 s0 =
      match scanNumber (if c = 43 ∨ c = 45 then cs else c :: cs) with
      | .error e => .error e
      | .ok (tok, rest) =>
        if (c ≠ 45 ∧ 2 ^ 63 ≤ digitsValue tok) ∨ (c = 45 ∧ 2 ^ 63 < digitsValue tok) then
          .error .range
        else .ok (if c = 45 then -(digitsValue tok : Int) else (digitsValue tok : Int), rest) := by
  unfold scanInt
  rw [h2]
  simp only
  cases scanNumber (if c = 43 ∨ c = 45 then cs else c :: cs) with
  | error e => rfl
  | ok tr =>
    obtain ⟨tok, r⟩ := tr
    simp only [Nat.add_one_sub_one]
    by_cases hm : c = 45
    · subst hm
      simp only [beq_self_eq_true, Bool.not_true, Bool.false_and, Bool.true_and, Bool.false_or,
        decide_eq_true_eq, if_true, ne_eq, not_true_eq_false, false_and, true_and, false_or]
      by_cases hr : 2 ^ 63 < digitsValue tok
      · rw [if_pos hr, if_pos hr]
      · rw [if_neg hr, if_neg hr, if_neg (by omega)]
    · have hneg : (c == 45) = false := by simpa using hm
      simp only [hneg, Bool.not_false, Bool.true_and, Bool.false_and, Bool.or_false,
        decide_eq_true_eq, Bool.false_eq_true, if_false, ne_eq, hm, not_false_eq_true, true_and,
        false_and, or_false]
      by_cases hr : 2 ^ 63 ≤ digitsValue tok
      · rw [if_pos hr, if_pos hr]
      · rw [if_neg hr, if_neg hr, if_neg (by omega)]

/-- What one `%d` for a 64-bit signed operand reads. -/
theorem verbInt_inv {v : Int} {s rest : List Byte} (h : verbInt 64 s = .ok (v, rest)) :
    ∃ sp sign d, Spaces sp ∧ (sign = [] ∨ sign = [43] ∨ sign = [45]) ∧
      Numeral d (digitsValue d) ∧ noDigitAhead rest ∧ s = sp ++ sign ++ d ++ rest ∧
      v = (if sign = [45] then -(digitsValue d : Int) else (digitsValue d : Int)) ∧
      -(2 : Int) ^ 63 ≤ v ∧ v < (2 : Int) ^ 63 := by
  unfold verbInt at h
  cases h1 : SkipSpace s with
  | error e => rw [h1] at h; simp at h
  | ok s0 =>
    rw [h1] at h
    simp only at h
    cases h2 : SkipSpace s0 with
    | error e => simp [scanInt, h2] at h
    | ok s1 =>
      obtain ⟨sp1, hsp1, e1⟩ := SkipSpace_inv h1
      obtain ⟨sp2, hsp2, e2⟩ := SkipSpace_inv h2
      have hsp := Spaces_append hsp1 hsp2
      cases s1 with
      | nil => simp [scanInt, h2] at h
      | cons c cs =>
        rw [scanInt_cons h2] at h
        cases h3 : scanNumber (if c = 43 ∨ c = 45 then cs else c :: cs) with
        | error e => rw [h3] at h; simp at h
        | ok tr =>
          obtain ⟨tok, r⟩ := tr
          rw [h3] at h
          simp only at h
          obtain ⟨e3, hnum, hnd⟩ := scanNumber_inv h3
          by_cases hrange : (c ≠ 45 ∧ 2 ^ 63 ≤ digitsValue tok) ∨ (c = 45 ∧ 2 ^ 63 < digitsValue tok)
          · rw [if_pos hrange] at h
            simp at h
          · rw [if_neg hrange] at h
            simp only [Except.ok.injEq, Prod.mk.injEq] at h
            obtain ⟨hv, hr⟩ := h
            subst hr
            by_cases hm : c = 45
            · subst hm
              simp only [or_true, if_true] at e3 hv
              refine ⟨sp1 ++ sp2, [45], tok, hsp, Or.inr (Or.inr rfl), hnum, hnd, ?_, ?_, ?_⟩
              · rw [e1, e2, e3]
                simp only [List.append_assoc, List.singleton_append, List.cons_append, List.nil_append]
              · rw [← hv]; simp
              · rw [← hv]
                simp only [ne_eq, not_true_eq_false, false_and, true_and, false_or, not_lt]
                  at hrange
                omega
            · rw [if_neg hm] at hv
              have hlim : ¬ 2 ^ 63 ≤ digitsValue tok := fun e => hrange (Or.inl ⟨hm, e⟩)
              by_cases hp : c = 43
              · subst hp
                simp only [true_or, if_true] at e3
                refine ⟨sp1 ++ sp2, [43], tok, hsp, Or.inr (Or.inl rfl), hnum, hnd, ?_, ?_, ?_⟩
                · rw [e1, e2, e3]
                  simp only [List.append_assoc, List.singleton_append, List.cons_append, List.nil_append]
                · rw [← hv]; simp
                · rw [← hv]; omega
              · have hno : ¬ (c = 43 ∨ c = 45) := fun e => e.elim hp hm
                rw [if_neg hno] at e3
                refine ⟨sp1 ++ sp2, [], tok, hsp, Or.inl rfl, hnum, hnd, ?_, ?_, ?_⟩
                · rw [e1, e2, e3]
                  simp only [List.append_assoc, List.append_nil, List.nil_append]
                · rw [← hv]; simp
                · rw [← hv]; omega

theorem stopsSpace_sign (c : Byte) (s : List Byte) (h : c = 43 ∨ c = 45) :
    stopsSpace (c :: s) := by
  intro x hx
  simp only [List.head?_cons, Option.some.injEq] at hx
  subst hx
  rcases h with rfl | rfl <;> exact ⟨by decide, by decide⟩

/-- One `%d` for a 64-bit signed operand reads a numeral after white space and
an optional sign. -/
theorem verbInt_form {sp sign d rest : List Byte} (hsp : Spaces sp)
    (hsign : sign = [] ∨ sign = [43] ∨ sign = [45]) (hd : Numeral d (digitsValue d))
    (hr : noDigitAhead rest)
    (hlo : -(2 : Int) ^ 63 ≤
      (if sign = [45] then -(digitsValue d : Int) else (digitsValue d : Int)))
    (hhi : (if sign = [45] then -(digitsValue d : Int) else (digitsValue d : Int)) <
      (2 : Int) ^ 63) :
    verbInt 64 (sp ++ sign ++ d ++ rest) =
      .ok (if sign = [45] then -(digitsValue d : Int) else (digitsValue d : Int), rest) := by
  have hnum := scanNumber_numeral hd hr
  rcases hsign with rfl | rfl | rfl
  · have hst : stopsSpace (d ++ rest) := stopsSpace_digit hd
    obtain ⟨hne, hall, -⟩ := hd
    cases d with
    | nil => exact absurd rfl hne
    | cons c cs =>
      have hc : isDigit c = true := hall c (by simp)
      have h43 : c ≠ 43 := by rintro rfl; exact absurd hc (by decide)
      have h45 : c ≠ 45 := by rintro rfl; exact absurd hc (by decide)
      have hno : ¬ (c = 43 ∨ c = 45) := fun e => e.elim h43 h45
      have hif : ¬ ([] : List Byte) = [45] := by decide
      rw [if_neg hif] at hlo hhi ⊢
      simp only [List.append_nil, List.append_assoc, List.cons_append] at hst hnum ⊢
      have h2 := SkipSpace_stops _ hst
      simp only [verbInt, SkipSpace_spaces hsp _ hst]
      rw [scanInt_cons h2, if_neg hno, hnum]
      simp only [if_neg h45]
      rw [if_neg (by
        rintro (⟨-, h⟩ | ⟨h, -⟩)
        · omega
        · exact h45 h)]
  · have hst : stopsSpace ((43 : Byte) :: (d ++ rest)) := stopsSpace_sign _ _ (Or.inl rfl)
    have hif : ¬ ([43] : List Byte) = [45] := by decide
    have h45 : ¬ ((43 : Byte) = 45) := by decide
    rw [if_neg hif] at hlo hhi ⊢
    simp only [List.append_assoc, List.singleton_append, List.cons_append, List.nil_append]
      at hst ⊢
    have h2 := SkipSpace_stops _ hst
    simp only [verbInt, SkipSpace_spaces hsp _ hst]
    rw [scanInt_cons h2, if_pos (Or.inl rfl), hnum]
    simp only [if_neg h45]
    rw [if_neg (by
      rintro (⟨-, h⟩ | ⟨h, -⟩)
      · omega
      · exact h45 h)]
  · have hst : stopsSpace ((45 : Byte) :: (d ++ rest)) := stopsSpace_sign _ _ (Or.inr rfl)
    rw [if_pos rfl] at hlo hhi ⊢
    simp only [List.append_assoc, List.singleton_append, List.cons_append, List.nil_append]
      at hst ⊢
    have h2 := SkipSpace_stops _ hst
    simp only [verbInt, SkipSpace_spaces hsp _ hst]
    rw [scanInt_cons h2, if_pos (Or.inr rfl), hnum]
    simp only [if_true]
    rw [if_neg (by
      rintro (⟨h, -⟩ | ⟨-, h⟩)
      · exact h rfl
      · omega)]

theorem scanInput_split (f : List Byte) :
    ∃ t, f = scanInput f ++ t ∧ (f.length ≤ hugeWid → t = []) := by
  by_cases hl : f.length ≤ hugeWid
  · exact ⟨[], by rw [scanInput_small hl, List.append_nil], fun _ => rfl⟩
  · obtain ⟨t, ht⟩ := scanInput_isInitial f
    exact ⟨t, ht, fun h => absurd h hl⟩

theorem noDigitAhead_append_nil {rest t : List Byte} (hr : noDigitAhead rest) (ht : t = []) :
    noDigitAhead (rest ++ t) := by
  rw [ht, List.append_nil]
  exact hr

/-- What `fmt.Sscanf` with `"v=%d"` reads a version from has the form of
`versionForm`. -/
theorem versionForm_of_Sscanf {f : List Byte} {v : Int} (h : SscanfVersion f = .ok v) :
    versionForm f v := by
  unfold SscanfVersion at h
  cases ha : advance (ascii "v=") (scanInput f) with
  | error e => rw [ha] at h; simp at h
  | ok s0 =>
    rw [ha] at h
    simp only at h
    cases hb : verbInt 64 s0 with
    | error e => rw [hb] at h; simp at h
    | ok vr =>
      obtain ⟨v', r⟩ := vr
      rw [hb] at h
      simp only [Except.ok.injEq] at h
      subst h
      obtain ⟨sp, sign, d, hsp, hsign, hnum, hnd, e1, hv, hlo, hhi⟩ := verbInt_inv hb
      obtain ⟨t, ht, htnil⟩ := scanInput_split f
      refine ⟨sp, sign, d, r ++ t, ?_, hsp, hsign, hnum,
        fun hl => noDigitAhead_append_nil hnd (htnil hl), hv, hlo, hhi⟩
      conv_lhs => rw [ht, advance_ok_inv _ ha, e1]
      simp only [List.append_assoc]

/-- A field of the form of `versionForm` and of at most `hugeWid` bytes is read
by `fmt.Sscanf` with `"v=%d"`. -/
theorem Sscanf_of_versionForm {f : List Byte} {v : Int} (h : versionForm f v)
    (hl : f.length ≤ hugeWid) : SscanfVersion f = .ok v := by
  obtain ⟨sp, sign, d, rest, hf, hsp, hsign, hnum, hnd, hv, hlo, hhi⟩ := h
  have hnd2 := hnd hl
  rw [hv] at hlo hhi
  have hverb := verbInt_form hsp hsign hnum hnd2 hlo hhi
  unfold SscanfVersion
  rw [scanInput_small hl, hf]
  simp only [List.append_assoc, advance_append]
  simp only [List.append_assoc] at hverb
  rw [hverb, hv]

/-- What `fmt.Sscanf` with `"t=%d,m=%d,p=%d"` reads three numbers from has the
form of `costsForm`. -/
theorem costsForm_of_Sscanf {f : List Byte} {t m p : Nat} (h : SscanfCosts f = .ok (t, m, p)) :
    costsForm f t m p := by
  unfold SscanfCosts at h
  cases ha : advance (ascii "t=") (scanInput f) with
  | error e => rw [ha] at h; simp at h
  | ok s0 =>
    rw [ha] at h
    simp only at h
    cases hb : verbUint 32 s0 with
    | error e => rw [hb] at h; simp at h
    | ok x1 =>
      obtain ⟨t', r1⟩ := x1
      rw [hb] at h
      simp only at h
      cases hc : advance (ascii ",m=") r1 with
      | error e => rw [hc] at h; simp at h
      | ok s2 =>
        rw [hc] at h
        simp only at h
        cases hd : verbUint 32 s2 with
        | error e => rw [hd] at h; simp at h
        | ok x2 =>
          obtain ⟨m', r3⟩ := x2
          rw [hd] at h
          simp only at h
          cases he : advance (ascii ",p=") r3 with
          | error e => rw [he] at h; simp at h
          | ok s4 =>
            rw [he] at h
            simp only at h
            cases hg : verbUint 8 s4 with
            | error e => rw [hg] at h; simp at h
            | ok x3 =>
              obtain ⟨p', r5⟩ := x3
              rw [hg] at h
              simp only [Except.ok.injEq, Prod.mk.injEq] at h
              obtain ⟨rfl, rfl, rfl⟩ := h
              obtain ⟨sp1, d1, hsp1, hn1, -, e1, hb1⟩ := verbUint_inv hb
              obtain ⟨sp2, d2, hsp2, hn2, -, e2, hb2⟩ := verbUint_inv hd
              obtain ⟨sp3, d3, hsp3, hn3, hnd, e3, hb3⟩ := verbUint_inv hg
              obtain ⟨tl, ht, htnil⟩ := scanInput_split f
              refine ⟨sp1, d1, sp2, d2, sp3, d3, r5 ++ tl, ?_, hsp1, hsp2, hsp3, hn1, hn2, hn3,
                fun hl => noDigitAhead_append_nil hnd (htnil hl), hb1, hb2, hb3⟩
              conv_lhs =>
                rw [ht, advance_ok_inv _ ha, e1, advance_ok_inv _ hc, e2, advance_ok_inv _ he, e3]
              simp only [List.append_assoc]

/-- A field of the form of `costsForm` and of at most `hugeWid` bytes is read by
`fmt.Sscanf` with `"t=%d,m=%d,p=%d"`. -/
theorem Sscanf_of_costsForm {f : List Byte} {t m p : Nat} (h : costsForm f t m p)
    (hl : f.length ≤ hugeWid) : SscanfCosts f = .ok (t, m, p) := by
  obtain ⟨s1, d1, s2, d2, s3, d3, rest, hf, hsp1, hsp2, hsp3, hn1, hn2, hn3, hnd, ht, hm, hp⟩ := h
  have c1 : ascii ",m=" = (44 : Byte) :: ascii "m=" := by decide
  have c2 : ascii ",p=" = (44 : Byte) :: ascii "p=" := by decide
  have v1 := @verbUint_form 32 t s1 d1
    (ascii ",m=" ++ (s2 ++ (d2 ++ (ascii ",p=" ++ (s3 ++ (d3 ++ rest)))))) hsp1 hn1 (by rw [c1]; exact noDigitAhead_ascii_comma _) ht (by decide)
  have v2 := @verbUint_form 32 m s2 d2 (ascii ",p=" ++ (s3 ++ (d3 ++ rest))) hsp2 hn2 (by rw [c2]; exact noDigitAhead_ascii_comma _) hm (by decide)
  have v3 := @verbUint_form 8 p s3 d3 rest hsp3 hn3 (hnd hl) hp (by decide)
  simp only [List.append_assoc] at v1 v2 v3
  unfold SscanfCosts
  rw [scanInput_small hl, hf]
  simp only [List.append_assoc, advance_append, v1, v2, v3]

/-! ## The claims -/

/-- C1: for every secret and every 16-byte salt delivered by the random source,
`VerifyHash(secret, h)` returns true for the string `h` that `GenerateHash(secret)`
returned with that salt, the key derivation being any function that returns
exactly `keyLen` bytes. -/
theorem verify_generate_agree (kdf : Kdf) (secret : List Byte) (rd : RandRead)
    (hkdf : ∀ pw salt t m p keyLen, (kdf pw salt t m p keyLen).length = keyLen)
    (herr : rd.err = none) (hn : rd.n = 16) (hsalt : rd.salt.length = 16) :
    ∃ h, GenerateHash kdf rd secret = .ok (.ok h) ∧ VerifyHash kdf secret h = .ok true := by
  refine ⟨_, GenerateHash_ok kdf rd secret herr (by rw [hn, hsalt]), ?_⟩
  unfold VerifyHash
  rw [DecodeHash_formatHash 1 65536 4 _ _ (by decide) (by decide) (by decide)]
  simp [IDKey, hkdf]

theorem verify_generate_agree_witness :
    (∀ pw salt t m p keyLen, (sampleKdf pw salt t m p keyLen).length = keyLen) ∧
      sampleRead.err = none ∧ sampleRead.n = 16 ∧ sampleRead.salt.length = 16 ∧
      ∃ h, GenerateHash sampleKdf sampleRead (ascii "very_secret_password123") = .ok (.ok h) ∧
        VerifyHash sampleKdf (ascii "very_secret_password123") h = .ok true :=
  ⟨fun _ _ _ _ _ _ => List.length_replicate _ _, rfl, rfl, rfl,
    verify_generate_agree sampleKdf (ascii "very_secret_password123") sampleRead
      (fun _ _ _ _ _ _ => List.length_replicate _ _) rfl rfl rfl⟩

/-- C2: for every valid parameter set `p` (version 19, time and memory below
`2^32`, threads below `2^8`, non-empty salt and key, the key no longer than the
`uint32` field `KeyLen` can count), `DecodeHash` succeeds on the string the
format of `GenerateHash` writes for `p`, and yields the version, time, memory,
threads, salt and key of `p`, with `KeyLen` the byte length of the key. -/
theorem decode_format_roundtrip (p : Argon2Params) (hv : p.Version = argon2Version)
    (ht : p.Time < 2 ^ 32) (hm : p.Memory < 2 ^ 32) (hp : p.Threads < 2 ^ 8)
    (_hs : p.Salt ≠ []) (_hk : p.Key ≠ []) (hlen : p.Key.length < 2 ^ 32) :
    DecodeHash (formatHash p.Version p.Time p.Memory p.Threads p.Salt p.Key) =
      .ok { Version := p.Version, Time := p.Time, Memory := p.Memory, Threads := p.Threads,
            KeyLen := p.Key.length, Salt := p.Salt, Key := p.Key } := by
  rw [hv, DecodeHash_formatHash p.Time p.Memory p.Threads p.Salt p.Key ht hm hp,
    Nat.mod_eq_of_lt hlen]

theorem decode_format_roundtrip_witness :
    DecodeHash (formatHash 19 3 4294967295 255 [250, 202, 61] [62, 3, 96, 95]) =
      .ok { Version := 19, Time := 3, Memory := 4294967295, Threads := 255,
            KeyLen := 4, Salt := [250, 202, 61], Key := [62, 3, 96, 95] } :=
  decode_format_roundtrip ⟨19, 3, 4294967295, 255, 0, [250, 202, 61], [62, 3, 96, 95]⟩ rfl
    (by decide) (by decide) (by decide) (by decide) (by decide) (by decide)

/-- C3: the claim that `VerifyHash` never panics fails on the code: `DecodeHash`
accepts a hash string with `t=0` (and one with `p=0`), `VerifyHash` passes the
decoded costs unchanged to `argon2.IDKey`, and `IDKey` panics on them, whatever
the secret. -/
theorem verify_panics_on_zero_cost (kdf : Kdf) (secret : List Byte) :
    DecodeHash (ascii "$argon2id$v=19$t=0,m=65536,p=4$AAAA$AAAA") =
        .ok { Version := 19, Time := 0, Memory := 65536, Threads := 4, KeyLen := 3,
              Salt := [0, 0, 0], Key := [0, 0, 0] } ∧
      VerifyHash kdf secret (ascii "$argon2id$v=19$t=0,m=65536,p=4$AAAA$AAAA") =
        .error "argon2: number of rounds too small" ∧
      VerifyHash kdf secret (ascii "$argon2id$v=19$t=1,m=65536,p=0$AAAA$AAAA") =
        .error "argon2: parallelism degree too low" :=
  ⟨rfl, rfl, rfl⟩

/-- C4: `VerifyHash(secret, hash)` returns true if and only if `DecodeHash(hash)`
succeeds and the key derived again from the secret with the decoded salt, time,
memory, threads and key length is the decoded key; and every failure of
`DecodeHash` makes `VerifyHash` return false. -/
theorem verify_true_iff (kdf : Kdf) (secret hash : List Byte) :
    (VerifyHash kdf secret hash = .ok true ↔
      ∃ d, DecodeHash hash = .ok d ∧
        IDKey kdf secret d.Salt d.Time d.Memory d.Threads d.KeyLen = .ok d.Key) ∧
      (∀ e, DecodeHash hash = .error e → VerifyHash kdf secret hash = .ok false) := by
  constructor
  · unfold VerifyHash
    cases hd : DecodeHash hash with
    | error e => simp
    | ok d =>
      cases hk : IDKey kdf secret d.Salt d.Time d.Memory d.Threads d.KeyLen with
      | error msg => simp [hk]
      | ok key => simp [hk]
  · intro e he
    unfold VerifyHash
    rw [he]

theorem verify_true_iff_witness :
    DecodeHash (ascii "$v=19$t=1,m=65536,p=4$AAAA$AAAA") = .error .ErrInvalidArgon2FieldCount ∧
      VerifyHash sampleKdf (ascii "pw") (ascii "$v=19$t=1,m=65536,p=4$AAAA$AAAA") = .ok false :=
  ⟨rfl, (verify_true_iff sampleKdf (ascii "pw") (ascii "$v=19$t=1,m=65536,p=4$AAAA$AAAA")).2
    .ErrInvalidArgon2FieldCount rfl⟩


/-- C5, as stated, fails: a six-field string with a valid prefix whose field 2
is `v=19xyz` and whose field 3 is `t=1,m=65536,p=4,q=9`, neither of the exact
form, is decoded successfully. -/
theorem decode_accepts_trailing_bytes :
    Split (ascii "$argon2id$v=19xyz$t=1,m=65536,p=4,q=9$AAAA$AAAA") =
        [[], ascii "argon2id", ascii "v=19xyz", ascii "t=1,m=65536,p=4,q=9", ascii "AAAA",
          ascii "AAAA"] ∧
      DecodeHash (ascii "$argon2id$v=19xyz$t=1,m=65536,p=4,q=9$AAAA$AAAA") =
        .ok { Version := 19, Time := 1, Memory := 65536, Threads := 4, KeyLen := 3,
              Salt := [0, 0, 0], Key := [0, 0, 0] } :=
  ⟨rfl, rfl⟩

/-- C5, amended: on a six-field string with a valid prefix, `DecodeHash` succeeds
only if field 2 has the form `v=<integer>` with the integer 19 and field 3 the
form `t=<uint>,m=<uint>,p=<uint>` in that order with the decoded time, memory
and threads, where white space (no line feed) may stand before each number, a
sign before the version, and any bytes that do not go on the number after the
last number of a field; and every such string whose fields 2 and 3 have that
form (within `2^30` bytes) and whose fields 4 and 5 are base64 is decoded.  When
field 2 has that form for no integer, or has it for 19 while field 3 has it for
no three numbers, `DecodeHash` fails with the error of `fmt.Sscanf`, which is
"input does not match format" for `c=19` and for `t=1,m=65536,s=4`. -/
theorem decode_scan_fields (h f0 f1 f2 f3 f4 f5 : List Byte)
    (hs : Split h = [f0, f1, f2, f3, f4, f5]) (h0 : f0 = []) (h1 : f1 = ascii "argon2id") :
    (∀ d, DecodeHash h = .ok d →
        versionForm f2 19 ∧ costsForm f3 d.Time d.Memory d.Threads) ∧
      (∀ t m p salt key, versionForm f2 19 → costsForm f3 t m p →
        f2.length ≤ hugeWid → f3.length ≤ hugeWid →
        DecodeString f4 = .ok salt → DecodeString f5 = .ok key →
        DecodeHash h =
          .ok { Version := 19, Time := t, Memory := m, Threads := p,
                KeyLen := key.length % 2 ^ 32, Salt := salt, Key := key }) ∧
      ((¬ ∃ v, versionForm f2 v) →
        ∃ e, SscanfVersion f2 = .error e ∧ DecodeHash h = .error (.scan e)) ∧
      (versionForm f2 19 → f2.length ≤ hugeWid → (¬ ∃ t m p, costsForm f3 t m p) →
        ∃ e, SscanfCosts f3 = .error e ∧ DecodeHash h = .error (.scan e)) ∧
      SscanfVersion (ascii "c=19") = .error .noMatch ∧
      SscanfCosts (ascii "t=1,m=65536,s=4") = .error .noMatch := by
  refine ⟨?_, ?_, ?_, ?_, rfl, rfl⟩
  · intro d hd
    obtain ⟨-, -, hv, hc, -⟩ := DecodeHash_ok_inv hs hd
    exact ⟨versionForm_of_Sscanf hv, costsForm_of_Sscanf hc⟩
  · intro t m p salt key hv hc hl2 hl3 h4 h5
    exact DecodeHash_ok hs h0 h1 (Sscanf_of_versionForm hv hl2) (Sscanf_of_costsForm hc hl3) h4 h5
  · intro hno
    cases hv : SscanfVersion f2 with
    | error e => exact ⟨e, rfl, DecodeHash_scanVersion hs h0 h1 hv⟩
    | ok v => exact absurd ⟨v, versionForm_of_Sscanf hv⟩ hno
  · intro hv hl2 hno
    cases hc : SscanfCosts f3 with
    | error e =>
      exact ⟨e, rfl, DecodeHash_scanCosts hs h0 h1 (Sscanf_of_versionForm hv hl2) hc⟩
    | ok x =>
      obtain ⟨t, m, p⟩ := x
      exact absurd ⟨t, m, p, costsForm_of_Sscanf hc⟩ hno

theorem decode_scan_fields_witness :
    DecodeHash (ascii "$argon2id$v= +19xyz$t=1,m=\t65536,p=4,q=9$AAAA$AAAA") =
        .ok { Version := 19, Time := 1, Memory := 65536, Threads := 4, KeyLen := 3,
              Salt := [0, 0, 0], Key := [0, 0, 0] } ∧
      (∃ e, SscanfVersion (ascii "c=19") = .error e ∧
        DecodeHash (ascii "$argon2id$c=19$t=1,m=65536,p=4$AAAA$AAAA") = .error (.scan e)) ∧
      (∃ e, SscanfCosts (ascii "t=1,m=65536,s=4") = .error e ∧
        DecodeHash (ascii "$argon2id$v=19$t=1,m=65536,s=4$AAAA$AAAA") = .error (.scan e)) :=
  ⟨(decode_scan_fields (ascii "$argon2id$v= +19xyz$t=1,m=\t65536,p=4,q=9$AAAA$AAAA") []
      (ascii "argon2id") (ascii "v= +19xyz") (ascii "t=1,m=\t65536,p=4,q=9") (ascii "AAAA")
      (ascii "AAAA") rfl rfl rfl).2.1 1 65536 4 [0, 0, 0] [0, 0, 0]
      ⟨[32], [43], ascii "19", ascii "xyz", rfl, Spaces.cons [32] [] rfl Spaces.nil,
        Or.inr (Or.inl rfl), ⟨by decide, by decide, rfl⟩, fun _ => by decide, by decide,
        by decide, by decide⟩
      ⟨[], ascii "1", [9], ascii "65536", [], ascii "4", ascii ",q=9", rfl, Spaces.nil,
        Spaces.cons [9] [] rfl Spaces.nil, Spaces.nil, ⟨by decide, by decide, rfl⟩,
        ⟨by decide, by decide, rfl⟩, ⟨by decide, by decide, rfl⟩, fun _ => by decide, by decide,
        by decide, by decide⟩
      (by decide) (by decide) rfl rfl,
    (decode_scan_fields (ascii "$argon2id$c=19$t=1,m=65536,p=4$AAAA$AAAA") [] (ascii "argon2id")
      (ascii "c=19") (ascii "t=1,m=65536,p=4") (ascii "AAAA") (ascii "AAAA") rfl rfl rfl).2.2.1
      (fun ⟨_, hv⟩ =>
        Except.noConfusion ((rfl : SscanfVersion (ascii "c=19") = .error .noMatch).symm.trans
          (Sscanf_of_versionForm hv (by decide)))),
    (decode_scan_fields (ascii "$argon2id$v=19$t=1,m=65536,s=4$AAAA$AAAA") [] (ascii "argon2id")
      (ascii "v=19") (ascii "t=1,m=65536,s=4") (ascii "AAAA") (ascii "AAAA") rfl rfl rfl).2.2.2.1
      ⟨[], [], ascii "19", [], rfl, Spaces.nil, Or.inl rfl, ⟨by decide, by decide, rfl⟩,
        fun _ => by decide, by decide, by decide, by decide⟩
      (by decide)
      (fun ⟨_, _, _, hc⟩ =>
        Except.noConfusion
          ((rfl : SscanfCosts (ascii "t=1,m=65536,s=4") = .error .noMatch).symm.trans
            (Sscanf_of_costsForm hc (by decide))))⟩

/-- C6: for every input string, `DecodeHash` fails with
`ErrInvalidArgon2FieldCount` exactly when splitting the string on `$` does not
give six fields, which is exactly when the string does not hold five `$`. -/
theorem decode_field_count (h : List Byte) :
    (DecodeHash h = .error .ErrInvalidArgon2FieldCount ↔ (Split h).length ≠ 6) ∧
      ((Split h).length ≠ 6 ↔ h.count dollar ≠ 5) := by
  constructor
  · constructor
    · intro he hl
      obtain ⟨f0, f1, f2, f3, f4, f5, hs⟩ := length_six hl
      rw [DecodeHash_fields hs] at he
      split at he
      · simp at he
      · split at he
        · simp at he
        · split at he
          · simp at he
          · split at he
            · simp at he
            · split at he
              · simp at he
              · split at he <;> simp at he
    · exact DecodeHash_count
  · rw [Split_length, Count_eq_count]
    omega

/-- C7: for every string of six fields, `DecodeHash` fails with
`ErrIncompatableArgon2Version` exactly when field 0 is not empty, or field 1 is
not `argon2id`, or `fmt.Sscanf` reads from field 2 an integer other than the
Argon2 version 19. -/
theorem decode_incompatible_iff (h f0 f1 f2 f3 f4 f5 : List Byte)
    (hs : Split h = [f0, f1, f2, f3, f4, f5]) :
    DecodeHash h = .error .ErrIncompatableArgon2Version ↔
      (f0 ≠ [] ∨ f1 ≠ ascii "argon2id" ∨ ∃ v, SscanfVersion f2 = .ok v ∧ v ≠ 19) := by
  by_cases hp : f0 ≠ [] ∨ f1 ≠ ascii "argon2id"
  · constructor
    · intro _
      rcases hp with hp | hp
      · exact Or.inl hp
      · exact Or.inr (Or.inl hp)
    · intro _
      exact DecodeHash_badStart hs hp
  · have h0 : f0 = [] := by
      by_contra hne
      exact hp (Or.inl hne)
    have h1 : f1 = ascii "argon2id" := by
      by_contra hne
      exact hp (Or.inr hne)
    constructor
    · intro he
      refine Or.inr (Or.inr ?_)
      cases hv : SscanfVersion f2 with
      | error e =>
        rw [DecodeHash_scanVersion hs h0 h1 hv] at he
        simp at he
      | ok v =>
        refine ⟨v, rfl, ?_⟩
        intro hv19
        have hv2 : SscanfVersion f2 = .ok argon2Version := by rw [hv, hv19]; rfl
        rw [DecodeHash_fields hs, if_neg hp, hv2] at he
        simp only [ne_eq, not_true_eq_false, if_false] at he
        split at he
        · simp at he
        · split at he
          · simp at he
          · split at he <;> simp at he
    · rintro (hne | hne | ⟨v, hv, hne⟩)
      · exact absurd h0 hne
      · exact absurd h1 hne
      · exact DecodeHash_version hs h0 h1 hv hne

theorem decode_incompatible_iff_witness :
    DecodeHash (ascii "asdf$argon2id$v=19$t=1,m=65536,p=4$AAAA$AAAA") =
        .error .ErrIncompatableArgon2Version ∧
      DecodeHash (ascii "$argon2id$v=69$t=1,m=65536,p=4$AAAA$AAAA") =
        .error .ErrIncompatableArgon2Version :=
  ⟨(decode_incompatible_iff (ascii "asdf$argon2id$v=19$t=1,m=65536,p=4$AAAA$AAAA") (ascii "asdf")
      (ascii "argon2id") (ascii "v=19") (ascii "t=1,m=65536,p=4") (ascii "AAAA") (ascii "AAAA")
      rfl).mpr (Or.inl (by decide)),
    (decode_incompatible_iff (ascii "$argon2id$v=69$t=1,m=65536,p=4$AAAA$AAAA") []
      (ascii "argon2id") (ascii "v=69") (ascii "t=1,m=65536,p=4") (ascii "AAAA") (ascii "AAAA")
      rfl).mpr (Or.inr (Or.inr ⟨69, rfl, by decide⟩))⟩

/-- C8, as stated, fails: the error for a bad salt and the error for a bad key
are the same value, `base64.CorruptInputError(5)`; it names no field. -/
theorem decode_base64_error_names_no_field :
    DecodeHash (ascii ("$argon2id$v=19$t=1,m=65536,p=4$+so9o.cgsy068HEhWbi5Kg" ++
        "$PgNgX4shYkTGSWkkpD2U0whRnvz2ltcoPH4dwRG8kvg")) = .error (.CorruptInputError 5) ∧
      DecodeHash (ascii ("$argon2id$v=19$t=1,m=65536,p=4$+so9oAcgsy068HEhWbi5Kg" ++
        "$PgNgX.shYkTGSWkkpD2U0whRnvz2ltcoPH4dwRG8kvg")) = .error (.CorruptInputError 5) :=
  ⟨rfl, rfl⟩

/-- C8, amended: on a six-field string whose fields 0 to 3 pass their checks,
when the base64 decoder rejects field 4 (the salt), or accepts it and rejects
field 5 (the key), `DecodeHash` fails with the decoder's
`base64.CorruptInputError`, which carries a byte offset within the field and
does not name the field; the salt is decoded before the key; and when the
field starts with alphabet characters and line breaks followed by a byte that is
neither, the offset is the index of that byte (5 for a `.` at index 5). -/
theorem decode_base64_errors (h f0 f1 f2 f3 f4 f5 : List Byte) (t m p : Nat)
    (hs : Split h = [f0, f1, f2, f3, f4, f5]) (h0 : f0 = []) (h1 : f1 = ascii "argon2id")
    (hv : SscanfVersion f2 = .ok 19) (hc : SscanfCosts f3 = .ok (t, m, p)) :
    (∀ n, DecodeString f4 = .error n → DecodeHash h = .error (.CorruptInputError n)) ∧
      (∀ salt n, DecodeString f4 = .ok salt → DecodeString f5 = .error n →
        DecodeHash h = .error (.CorruptInputError n)) ∧
      (∀ pre c post, f4 = pre ++ c :: post →
        (∀ x ∈ pre, decodeMap x ≠ 0xFF ∨ x = 10 ∨ x = 13) →
        decodeMap c = 0xFF → c ≠ 10 → c ≠ 13 →
        DecodeHash h = .error (.CorruptInputError pre.length)) ∧
      (∀ salt pre c post, DecodeString f4 = .ok salt → f5 = pre ++ c :: post →
        (∀ x ∈ pre, decodeMap x ≠ 0xFF ∨ x = 10 ∨ x = 13) →
        decodeMap c = 0xFF → c ≠ 10 → c ≠ 13 →
        DecodeHash h = .error (.CorruptInputError pre.length)) := by
  refine ⟨?_, ?_, ?_, ?_⟩
  · intro n h4
    exact DecodeHash_salt hs h0 h1 hv hc h4
  · intro salt n h4 h5
    exact DecodeHash_key hs h0 h1 hv hc h4 h5
  · intro pre c post hf hpre hc0 hc1 hc2
    have h4 : DecodeString f4 = .error pre.length := by
      rw [hf, DecodeString, decodeLoop_corrupt pre c post hpre hc0 hc1 hc2, Nat.zero_add]
    exact DecodeHash_salt hs h0 h1 hv hc h4
  · intro salt pre c post h4 hf hpre hc0 hc1 hc2
    have h5 : DecodeString f5 = .error pre.length := by
      rw [hf, DecodeString, decodeLoop_corrupt pre c post hpre hc0 hc1 hc2, Nat.zero_add]
    exact DecodeHash_key hs h0 h1 hv hc h4 h5

theorem decode_base64_errors_witness :
    DecodeHash (ascii "$argon2id$v=19$t=1,m=65536,p=4$+so9o.cg$PgNgX.sh") =
        .error (.CorruptInputError 5) ∧
      DecodeHash (ascii "$argon2id$v=19$t=1,m=65536,p=4$+so9oAcg$PgNgX.sh") =
        .error (.CorruptInputError 5) :=
  ⟨(decode_base64_errors (ascii "$argon2id$v=19$t=1,m=65536,p=4$+so9o.cg$PgNgX.sh") []
      (ascii "argon2id") (ascii "v=19") (ascii "t=1,m=65536,p=4") (ascii "+so9o.cg")
      (ascii "PgNgX.sh") 1 65536 4 rfl rfl rfl rfl rfl).2.2.1 (ascii "+so9o") 46 (ascii "cg") rfl
      (by decide) (by decide) (by decide) (by decide),
    (decode_base64_errors (ascii "$argon2id$v=19$t=1,m=65536,p=4$+so9oAcg$PgNgX.sh") []
      (ascii "argon2id") (ascii "v=19") (ascii "t=1,m=65536,p=4") (ascii "+so9oAcg")
      (ascii "PgNgX.sh") 1 65536 4 rfl rfl rfl rfl rfl).2.2.2 [250, 202, 61, 160, 7, 32]
      (ascii "PgNgX") 46 (ascii "sh") rfl rfl (by decide) (by decide) (by decide) (by decide)⟩

/-- C9: for every secret and every 16-byte salt, the string `GenerateHash`
returns splits on `$` into exactly six fields: an empty field, `argon2id`,
`v=19`, `t=1,m=65536,p=4`, the unpadded base64 of the salt and the unpadded
base64 of the derived key, which has 32 bytes. -/
theorem generate_fields (kdf : Kdf) (secret : List Byte) (rd : RandRead)
    (hkdf : ∀ pw salt t m p keyLen, (kdf pw salt t m p keyLen).length = keyLen)
    (herr : rd.err = none) (hn : rd.n = 16) (hsalt : rd.salt.length = 16) :
    ∃ h key, GenerateHash kdf rd secret = .ok (.ok h) ∧
      key = kdf secret rd.salt 1 65536 4 32 ∧ key.length = 32 ∧
      Split h = [[], ascii "argon2id", ascii "v=19", ascii "t=1,m=65536,p=4",
        EncodeToString rd.salt, EncodeToString key] := by
  refine ⟨_, _, GenerateHash_ok kdf rd secret herr (by rw [hn, hsalt]), rfl, hkdf _ _ _ _ _ _, ?_⟩
  rw [Split_formatHash]
  have e1 : versionField argon2Version = ascii "v=19" := by decide
  have e2 : costField 1 65536 4 = ascii "t=1,m=65536,p=4" := by decide
  rw [e1, e2]

theorem generate_fields_witness :
    ∃ h key, GenerateHash sampleKdf sampleRead (ascii "pa$$word") = .ok (.ok h) ∧
      key = sampleKdf (ascii "pa$$word") sampleRead.salt 1 65536 4 32 ∧ key.length = 32 ∧
      Split h = [[], ascii "argon2id", ascii "v=19", ascii "t=1,m=65536,p=4",
        EncodeToString sampleRead.salt, EncodeToString key] :=
  generate_fields sampleKdf (ascii "pa$$word") sampleRead
    (fun _ _ _ _ _ _ => List.length_replicate _ _) rfl rfl rfl

/-- C10: for every secret and every two distinct 16-byte salts, the two strings
`GenerateHash` returns for that secret are different. -/
theorem generate_distinct_salts (kdf : Kdf) (secret : List Byte) (rd1 rd2 : RandRead)
    (herr1 : rd1.err = none) (hn1 : rd1.n = 16) (hsalt1 : rd1.salt.length = 16)
    (herr2 : rd2.err = none) (hn2 : rd2.n = 16) (hsalt2 : rd2.salt.length = 16)
    (hne : rd1.salt ≠ rd2.salt) :
    ∃ s1 s2, GenerateHash kdf rd1 secret = .ok (.ok s1) ∧
      GenerateHash kdf rd2 secret = .ok (.ok s2) ∧ s1 ≠ s2 := by
  refine ⟨_, _, GenerateHash_ok kdf rd1 secret herr1 (by rw [hn1, hsalt1]),
    GenerateHash_ok kdf rd2 secret herr2 (by rw [hn2, hsalt2]), ?_⟩
  intro he
  have hsp := congrArg Split he
  rw [Split_formatHash, Split_formatHash] at hsp
  simp only [List.cons.injEq, true_and, and_true] at hsp
  exact hne (EncodeToString_injective hsp.1)

theorem generate_distinct_salts_witness :
    ∃ s1 s2, GenerateHash sampleKdf sampleRead (ascii "same-secret") = .ok (.ok s1) ∧
      GenerateHash sampleKdf otherRead (ascii "same-secret") = .ok (.ok s2) ∧ s1 ≠ s2 :=
  generate_distinct_salts sampleKdf (ascii "same-secret") sampleRead otherRead rfl rfl rfl rfl rfl
    rfl (by decide)

end Hashing
